import Mathlib

/-!
Verification development for the PSK/PSA importer core
(`io_scene_psk_psa/psa/importer.py` and `io_scene_psk_psa/psk/importer.py`).

The Python code is shallowly embedded over exact rational arithmetic:

* `Quat` / `Vec3` model `mathutils.Quaternion` / `mathutils.Vector`.
  In mathutils, `a.rotate(b)` replaces `a` by the composition `b * a`
  (the other value is applied on the left); `v.rotate(q)` replaces the
  vector `v` by the image of `v` under the rotation `q` (the quaternion
  sandwich `q v q⁻¹` for a unit quaternion).  `rotateBy a b` below is the
  result of `a.rotate(b)` and `rotVec v q` the result of `v.rotate(q)`.
* `Mat3` models the 3x3 rotation blocks of `mathutils.Matrix`;
  `Matrix.rotate` likewise composes on the left, and `quatToMat` is the
  standard quaternion-to-rotation-matrix conversion (valid for unit
  quaternions, which is how the importers use it).
-/

/-- Rational quaternion, `(w, x, y, z)` as in `mathutils.Quaternion`. -/
structure Quat where
  w : ℚ
  x : ℚ
  y : ℚ
  z : ℚ
deriving DecidableEq, Repr

/-- Hamilton product of quaternions. -/
def qmul (a b : Quat) : Quat :=
  ⟨a.w * b.w - a.x * b.x - a.y * b.y - a.z * b.z,
   a.w * b.x + a.x * b.w + a.y * b.z - a.z * b.y,
   a.w * b.y - a.x * b.z + a.y * b.w + a.z * b.x,
   a.w * b.z + a.x * b.y - a.y * b.x + a.z * b.w⟩

/-- Quaternion conjugate, `Quaternion.conjugated()`. -/
def qconj (a : Quat) : Quat := ⟨a.w, -a.x, -a.y, -a.z⟩

/-- The identity quaternion, `mathutils.Quaternion()`. -/
def qone : Quat := ⟨1, 0, 0, 0⟩

/-- Squared norm of a quaternion. -/
def qnormSq (a : Quat) : ℚ := a.w * a.w + a.x * a.x + a.y * a.y + a.z * a.z

/-- `a.rotate(b)` for `mathutils.Quaternion`: the rotation `a` composed with
`b` applied after it, i.e. the Hamilton product `b * a`. -/
def rotateBy (a b : Quat) : Quat := qmul b a

/-- Rational 3-vector, as in `mathutils.Vector`. -/
structure Vec3 where
  x : ℚ
  y : ℚ
  z : ℚ
deriving DecidableEq, Repr

/-- Vector addition. -/
def vadd (a b : Vec3) : Vec3 := ⟨a.x + b.x, a.y + b.y, a.z + b.z⟩

/-- Vector subtraction. -/
def vsub (a b : Vec3) : Vec3 := ⟨a.x - b.x, a.y - b.y, a.z - b.z⟩

/-- The zero vector, `mathutils.Vector()`. -/
def vzero : Vec3 := ⟨0, 0, 0⟩

/-- `v.rotate(q)` for a unit quaternion `q`: the quaternion sandwich
`q * (0, v) * conj q`, whose vector part is the rotated vector. -/
def rotVec (v : Vec3) (q : Quat) : Vec3 :=
  let p : Quat := ⟨0, v.x, v.y, v.z⟩
  let r : Quat := qmul (qmul q p) (qconj q)
  ⟨r.x, r.y, r.z⟩

/-!
### Animation retargeter per-sample conversion

`calculate_fcurve_data` from `psa/importer.py` (lines 40-55).  A bone's
intermediate import data (`ImportBone`) is reduced to exactly the fields the
conversion reads: `orig_loc`, `orig_quat`, `post_quat`, and whether
`import_bone.parent is None`.  A raw key is the 7-channel sample
`(qw, qx, qy, qz, lx, ly, lz)`.
-/

/-- One 7-channel sample `(Qw, Qx, Qy, Qz, Lx, Ly, Lz)`, one row of the
sequence data matrix. -/
structure KeyData where
  rw : ℚ
  rx : ℚ
  ry : ℚ
  rz : ℚ
  lx : ℚ
  ly : ℚ
  lz : ℚ
deriving DecidableEq, Repr

/-- Channel projection of a sample, channel order as in the f-curve list
(psa/importer.py:127-135). -/
def KeyData.ch (k : KeyData) (c : Fin 7) : ℚ :=
  [k.rw, k.rx, k.ry, k.rz, k.lx, k.ly, k.lz].getD c.val 0

/-- The fields of `ImportBone` read by `calculate_fcurve_data`. -/
structure BoneParams where
  orig_loc : Vec3
  orig_quat : Quat
  post_quat : Quat
  is_root : Bool
deriving DecidableEq, Repr

/-- Shallow embedding of `calculate_fcurve_data` (psa/importer.py:40-55):
converts one world-space sample of one bone to local space.  Each
`q.rotate(r)` of the source is `rotateBy q r`, and `loc.rotate(q)` is
`rotVec loc q`; `is_root` is `import_bone.parent is None`. -/
def calculate_fcurve_data (ib : BoneParams) (key : KeyData) : KeyData :=
  let key_rotation : Quat := ⟨key.rw, key.rx, key.ry, key.rz⟩
  let key_location : Vec3 := ⟨key.lx, key.ly, key.lz⟩
  let quat0 : Quat := rotateBy ib.post_quat ib.orig_quat
  let q : Quat :=
    rotateBy ib.post_quat (if ib.is_root then qconj key_rotation else key_rotation)
  let quat : Quat := rotateBy quat0 (qconj q)
  let loc : Vec3 := rotVec (vsub key_location ib.orig_loc) (qconj ib.post_quat)
  ⟨quat.w, quat.x, quat.y, quat.z, loc.x, loc.y, loc.z⟩

/-- The spec's per-sample formula read literally, with each composition
`a ∘ b` taken as the product `a * b` in the order the spec writes it:
`q = post_quat ∘ orig_quat`, `q' = post_quat ∘ (root ?
conjugate(key_rotation) : key_rotation)`, `local_rotation = q ∘
conjugate(q')`, `local_translation = rotate(key_location - orig_loc,
conjugate(post_quat))`. -/
def spec_fcurve_data (ib : BoneParams) (key : KeyData) : KeyData :=
  let key_rotation : Quat := ⟨key.rw, key.rx, key.ry, key.rz⟩
  let key_location : Vec3 := ⟨key.lx, key.ly, key.lz⟩
  let q : Quat := qmul ib.post_quat ib.orig_quat
  let q' : Quat :=
    qmul ib.post_quat (if ib.is_root then qconj key_rotation else key_rotation)
  let quat : Quat := qmul q (qconj q')
  let loc : Vec3 := rotVec (vsub key_location ib.orig_loc) (qconj ib.post_quat)
  ⟨quat.w, quat.x, quat.y, quat.z, loc.x, loc.y, loc.z⟩

/-- The spec's per-sample formula with each composition `a ∘ b` read in the
reverse (apply-`a`-first, product `b * a`) order, matching mathutils
`rotate`. -/
def spec_fcurve_data_rev (ib : BoneParams) (key : KeyData) : KeyData :=
  let key_rotation : Quat := ⟨key.rw, key.rx, key.ry, key.rz⟩
  let key_location : Vec3 := ⟨key.lx, key.ly, key.lz⟩
  let q : Quat := qmul ib.orig_quat ib.post_quat
  let q' : Quat :=
    qmul (if ib.is_root then qconj key_rotation else key_rotation) ib.post_quat
  let quat : Quat := qmul (qconj q') q
  let loc : Vec3 := rotVec (vsub key_location ib.orig_loc) (qconj ib.post_quat)
  ⟨quat.w, quat.x, quat.y, quat.z, loc.x, loc.y, loc.z⟩

/-- Concrete non-root bone for the C1 counterexample: a unit bind-pose
rotation `(3/5, 4/5, 0, 0)` with `post_quat = conjugate(orig_quat)` exactly
as the importer computes it (psa/importer.py:112). -/
def c1Bone : BoneParams :=
  { orig_loc := vzero
    orig_quat := ⟨3/5, 4/5, 0, 0⟩
    post_quat := ⟨3/5, -(4/5), 0, 0⟩
    is_root := false }

/-- Concrete raw sample for the C1 counterexample: the unit key rotation
`j = (0, 0, 1, 0)` and zero key location. -/
def c1Key : KeyData := ⟨0, 0, 1, 0, 0, 0, 0⟩

/-!
### Keyframe cleaning

The key-cleaning pass of `PsaImporter.import_psa` (psa/importer.py:153-169):
for one bone and one of the 7 channels, walk the frames in order carrying
`last_written_datum`; frame 0 always takes the else-branch (its index is not
`> 0`) and is kept; a later frame is un-marked for writing when its value is
within `threshold` of the last written value, and only a kept frame updates
`last_written_datum`.
-/

/-- `last_written_datum` after the cleaning loop has processed frames
`0..i` of one channel (psa/importer.py:163-169). -/
def lastKept (eps : ℚ) (v : ℕ → ℚ) : ℕ → ℚ
  | 0 => v 0
  | i + 1 => if |v (i + 1) - lastKept eps v i| < eps then lastKept eps v i else v (i + 1)

/-- The keep-matrix entry of frame `i` for one channel: `true` iff the
cleaning loop leaves the write-matrix entry at 1 (psa/importer.py:164-169). -/
def keepFrame (eps : ℚ) (v : ℕ → ℚ) : ℕ → Bool
  | 0 => true
  | i + 1 => if |v (i + 1) - lastKept eps v i| < eps then false else true

/-- Index of the last kept frame among `0..i` (frame 0 is always kept). -/
def lastKeptIdx (eps : ℚ) (v : ℕ → ℚ) : ℕ → ℕ
  | 0 => 0
  | i + 1 => if keepFrame eps v (i + 1) then i + 1 else lastKeptIdx eps v i

/-- One channel of the sequence data matrix,
`sequence_data_matrix[:, bone_index, fcurve_index]` (psa/importer.py:162). -/
def channelOf (m : ℕ → ℕ → KeyData) (b : ℕ) (c : Fin 7) : ℕ → ℚ :=
  fun f => (m f b).ch c

/-- The cleaning pass applied to one bone/channel slice of the sequence data
matrix with the hard-coded `threshold = 0.001` (psa/importer.py:156). -/
def clean_keys_matrix (m : ℕ → ℕ → KeyData) (b : ℕ) (c : Fin 7) : ℕ → Bool :=
  keepFrame (1/1000) (channelOf m b c)

/-- Concrete matrix for the C2 witness: channel 0 of bone 0 is
`0, 2, 2, ...`. -/
def c2m : ℕ → ℕ → KeyData :=
  fun f _ => ⟨if f = 0 then 0 else 2, 0, 0, 0, 0, 0, 0⟩

/-!
### Skeleton builder

`PskImporter.import_psk`, armature construction (psk/importer.py:66-88).
The first loop clamps every `parent_index` with `max(0, parent_index)`,
stores each bone's local rotation/translation and initializes the root
bone's world matrices (other bones keep the `Matrix()` identity defaults).
The second loop walks the bones in order and, for each non-root bone, reads
`import_bones[parent_index]` (an out-of-range index raises `IndexError`,
modelled as the `Except` error) and composes the world transform:
`Matrix.rotate` composes on the left, so
`world_rotation[b] = world_rotation[parent] * mat(conj(local_rotation[b]))`
and
`world_translation[b] = world_translation[parent] + world_rotation[parent] ⬝ local_translation[b]`.
The state is the pair of per-index world rotation matrices and world
translations, as total functions updated pointwise.
-/

/-- Rational 3x3 matrix, modelling the rotation blocks of
`mathutils.Matrix`. -/
structure Mat3 where
  m00 : ℚ
  m01 : ℚ
  m02 : ℚ
  m10 : ℚ
  m11 : ℚ
  m12 : ℚ
  m20 : ℚ
  m21 : ℚ
  m22 : ℚ
deriving DecidableEq, Repr

/-- Identity matrix, the rotation block of `mathutils.Matrix()`. -/
def matId : Mat3 := ⟨1, 0, 0, 0, 1, 0, 0, 0, 1⟩

/-- Matrix product. -/
def matMul (a b : Mat3) : Mat3 :=
  ⟨a.m00 * b.m00 + a.m01 * b.m10 + a.m02 * b.m20,
   a.m00 * b.m01 + a.m01 * b.m11 + a.m02 * b.m21,
   a.m00 * b.m02 + a.m01 * b.m12 + a.m02 * b.m22,
   a.m10 * b.m00 + a.m11 * b.m10 + a.m12 * b.m20,
   a.m10 * b.m01 + a.m11 * b.m11 + a.m12 * b.m21,
   a.m10 * b.m02 + a.m11 * b.m12 + a.m12 * b.m22,
   a.m20 * b.m00 + a.m21 * b.m10 + a.m22 * b.m20,
   a.m20 * b.m01 + a.m21 * b.m11 + a.m22 * b.m21,
   a.m20 * b.m02 + a.m21 * b.m12 + a.m22 * b.m22⟩

/-- Matrix applied to a column vector, `v.rotate(matrix)`. -/
def matVec (m : Mat3) (v : Vec3) : Vec3 :=
  ⟨m.m00 * v.x + m.m01 * v.y + m.m02 * v.z,
   m.m10 * v.x + m.m11 * v.y + m.m12 * v.z,
   m.m20 * v.x + m.m21 * v.y + m.m22 * v.z⟩

/-- `Quaternion.to_matrix()` for a unit quaternion: the standard rotation
matrix whose action is the quaternion sandwich. -/
def quatToMat (q : Quat) : Mat3 :=
  ⟨1 - 2 * (q.y * q.y + q.z * q.z), 2 * (q.x * q.y - q.w * q.z), 2 * (q.x * q.z + q.w * q.y),
   2 * (q.x * q.y + q.w * q.z), 1 - 2 * (q.x * q.x + q.z * q.z), 2 * (q.y * q.z - q.w * q.x),
   2 * (q.x * q.z - q.w * q.y), 2 * (q.y * q.z + q.w * q.x), 1 - 2 * (q.x * q.x + q.y * q.y)⟩

/-- One record of the PSK bone array: `rotation`, `location`, and the raw
(possibly negative) `parent_index`. -/
structure PskBoneRec where
  rotation : Quat
  location : Vec3
  parent_index : ℤ
deriving DecidableEq, Repr

/-- Placeholder bone for out-of-range list reads in statements. -/
def dummyPskBone : PskBoneRec := ⟨qone, vzero, 0⟩

/-- `psk.bones[b]`. -/
def boneAt (bones : List PskBoneRec) (b : ℕ) : PskBoneRec :=
  bones.getD b dummyPskBone

/-- The clamped parent index,
`psk_bone.parent_index = max(0, psk_bone.parent_index)`
(psk/importer.py:70). -/
def clampParent (bones : List PskBoneRec) (b : ℕ) : ℕ :=
  (boneAt bones b).parent_index.toNat

/-- The importer's root test,
`psk_bone.parent_index == 0 and bone_index == 0`
(psk/importer.py:73 and 79). -/
def isRootBone (bones : List PskBoneRec) (b : ℕ) : Bool :=
  b == 0 && clampParent bones b == 0

/-- World rotation matrix after the first loop (psk/importer.py:68-76): the
root bone gets `local_rotation.to_matrix()`, every other bone keeps the
`Matrix()` identity default of `ImportBone.__init__`. -/
def initRot (bones : List PskBoneRec) (i : ℕ) : Mat3 :=
  if isRootBone bones i then quatToMat (boneAt bones i).rotation else matId

/-- World translation after the first loop: the root bone gets
`Matrix.Translation(local_translation)`, every other bone keeps the zero
translation of the identity `world_matrix`. -/
def initTrans (bones : List PskBoneRec) (i : ℕ) : Vec3 :=
  if isRootBone bones i then (boneAt bones i).location else vzero

/-- Pointwise update of a total function, modelling assignment to one
element of the `import_bones` array. -/
def updF {α : Type} (f : ℕ → α) (i : ℕ) (a : α) : ℕ → α :=
  fun j => if j = i then a else f j

/-- One iteration of the second loop (psk/importer.py:78-88) at index `b`:
skip the root bone, fail with `IndexError` when the clamped parent index is
out of range, otherwise read the parent entries from the current state and
write the composed world transform at `b`. -/
def buildStep (bones : List PskBoneRec) (st : (ℕ → Mat3) × (ℕ → Vec3)) (b : ℕ) :
    Except String ((ℕ → Mat3) × (ℕ → Vec3)) :=
  if isRootBone bones b then .ok st
  else
    let p := clampParent bones b
    if p < bones.length then
      let pr := st.1 p
      let pt := st.2 p
      .ok (updF st.1 b (matMul pr (quatToMat (qconj (boneAt bones b).rotation))),
           updF st.2 b (vadd pt (matVec pr (boneAt bones b).location)))
    else .error "IndexError"

/-- The second loop over a list of bone indices. -/
def buildGo (bones : List PskBoneRec) :
    List ℕ → ((ℕ → Mat3) × (ℕ → Vec3)) → Except String ((ℕ → Mat3) × (ℕ → Vec3))
  | [], st => .ok st
  | b :: rest, st =>
    match buildStep bones st b with
    | .ok st2 => buildGo bones rest st2
    | .error e => .error e

/-- The complete world-transform construction of `import_psk`: the first
loop's initial state followed by the second loop over all bone indices in
order. -/
def buildWorld (bones : List PskBoneRec) :
    Except String ((ℕ → Mat3) × (ℕ → Vec3)) :=
  buildGo bones (List.range bones.length)
    (fun i => initRot bones i, fun i => initTrans bones i)

/-- The built world transforms when the build succeeded (identity/zero
defaults otherwise, used only to state theorems). -/
def buildOrDefault (bones : List PskBoneRec) : (ℕ → Mat3) × (ℕ → Vec3) :=
  match buildWorld bones with
  | .ok st => st
  | .error _ => (fun _ => matId, fun _ => vzero)

/-- Closed form of the world rotation the loop computes at index `b`: the
parent entry is final when the parent comes strictly earlier, and is the
untouched initial entry otherwise (the loop writes entry `p` only at step
`p`). -/
def wRotAux (bones : List PskBoneRec) (b : ℕ) : Mat3 :=
  if isRootBone bones b then initRot bones b
  else
    let p := clampParent bones b
    let pr := if h : p < b then wRotAux bones p else initRot bones p
    matMul pr (quatToMat (qconj (boneAt bones b).rotation))
termination_by b
decreasing_by exact h

/-- Closed form of the world translation the loop computes at index `b`. -/
def wTransAux (bones : List PskBoneRec) (b : ℕ) : Vec3 :=
  if isRootBone bones b then initTrans bones b
  else
    let p := clampParent bones b
    let pr := if h : p < b then wRotAux bones p else initRot bones p
    let pt := if h : p < b then wTransAux bones p else initTrans bones p
    vadd pt (matVec pr (boneAt bones b).location)
termination_by b
decreasing_by exact h

/-- The loop state after the first `k` indices have been processed. -/
def stateAfter (bones : List PskBoneRec) (k : ℕ) : (ℕ → Mat3) × (ℕ → Vec3) :=
  (fun i => if i < k then wRotAux bones i else initRot bones i,
   fun i => if i < k then wTransAux bones i else initTrans bones i)

/-- Concrete two-bone skeleton for C3: a root with unit bind rotation
`(3/5, 4/5, 0, 0)` and a child with bind rotation `j` and offset
`(1, 0, 0)`. -/
def c3Bones : List PskBoneRec :=
  [⟨⟨3/5, 4/5, 0, 0⟩, ⟨0, 0, 0⟩, 0⟩, ⟨⟨0, 0, 1, 0⟩, ⟨1, 0, 0⟩, 0⟩]

/-- Concrete skeleton with a negative parent index for C4. -/
def c4BonesNeg : List PskBoneRec :=
  [⟨qone, vzero, 0⟩, ⟨qone, ⟨1, 0, 0⟩, -5⟩]

/-- Concrete skeleton with a parent cycle (bone 1 and bone 2 are each
other's parent) for C4. -/
def c4BonesCycle : List PskBoneRec :=
  [⟨qone, vzero, 0⟩, ⟨qone, vzero, 2⟩, ⟨qone, vzero, 1⟩]

/-!
### Mesh assembler: faces, degenerate detection, UV streams

`PskImporter.import_psk`, mesh construction (psk/importer.py:130-169).
For each face the three wedge indices are consumed in reverse
(`reversed(face.wedge_indices)`) and resolved to vertex indices;
`bm.faces.new` raises `ValueError` either when the vertex list contains
duplicates or when a face with the same vertex set already exists, and the
`except` branch records the face index in `degenerate_face_indices`.  The
UV passes then skip the recorded degenerate indices while walking the faces
in order.
-/

/-- One PSK wedge: vertex (point) index plus primary UV. -/
structure PskWedge where
  point_index : ℕ
  u : ℚ
  v : ℚ
deriving DecidableEq, Repr

/-- One PSK triangle face: three wedge indices and a material index. -/
structure PskFace where
  wedge_index_0 : ℕ
  wedge_index_1 : ℕ
  wedge_index_2 : ℕ
  material_index : ℕ
deriving DecidableEq, Repr

/-- Placeholder wedge for out-of-range reads in statements. -/
def dummyWedge : PskWedge := ⟨0, 0, 0⟩

/-- Placeholder face for out-of-range reads in statements. -/
def dummyFace : PskFace := ⟨0, 0, 0, 0⟩

/-- `reversed(face.wedge_indices)` (psk/importer.py:132, 150, 165). -/
def revWedgeIndices (f : PskFace) : List ℕ :=
  [f.wedge_index_2, f.wedge_index_1, f.wedge_index_0]

/-- The vertex indices a face's wedges resolve to, as the ordered triple
`bm.faces.new` receives (reversed wedge order). -/
def facePts3 (wedges : List PskWedge) (f : PskFace) : ℕ × ℕ × ℕ :=
  ((wedges.getD f.wedge_index_2 dummyWedge).point_index,
   (wedges.getD f.wedge_index_1 dummyWedge).point_index,
   (wedges.getD f.wedge_index_0 dummyWedge).point_index)

/-- Whether the three resolved vertices are pairwise distinct. -/
def distinct3 (t : ℕ × ℕ × ℕ) : Bool :=
  decide (t.1 ≠ t.2.1) && decide (t.1 ≠ t.2.2) && decide (t.2.1 ≠ t.2.2)

/-- The vertex set of a face as a sorted triple (for distinct triples,
equality of sorted triples is equality of vertex sets, which is the
`BM_face_exists` test behind `bm.faces.new`). -/
def sort3 (t : ℕ × ℕ × ℕ) : ℕ × ℕ × ℕ :=
  let a := t.1
  let b := t.2.1
  let c := t.2.2
  if a ≤ b then
    if b ≤ c then (a, b, c)
    else if a ≤ c then (a, c, b)
    else (c, a, b)
  else
    if a ≤ c then (b, a, c)
    else if b ≤ c then (b, c, a)
    else (c, b, a)

/-- Mesh-assembly state: the vertex sets of the faces created so far, the
`degenerate_face_indices` set in discovery order, and the created faces
(point triple in reversed order plus `material_index`). -/
structure AsmState where
  acc : List (ℕ × ℕ × ℕ)
  deg : List ℕ
  fcs : List ((ℕ × ℕ × ℕ) × ℕ)
deriving DecidableEq, Repr

/-- One iteration of the face loop (psk/importer.py:131-137): `bm.faces.new`
succeeds iff the three vertices are distinct and no already-created face has
the same vertex set; otherwise the `except ValueError` branch records the
face index as degenerate. -/
def asmStep (wedges : List PskWedge) (st : AsmState) (i : ℕ) (f : PskFace) : AsmState :=
  let pts := facePts3 wedges f
  if distinct3 pts && !(decide (sort3 pts ∈ st.acc)) then
    { acc := st.acc ++ [sort3 pts], deg := st.deg, fcs := st.fcs ++ [(pts, f.material_index)] }
  else
    { acc := st.acc, deg := st.deg ++ [i], fcs := st.fcs }

/-- The face loop over the remaining faces, carrying the running index. -/
def asmGo (wedges : List PskWedge) : List PskFace → ℕ → AsmState → AsmState
  | [], _, st => st
  | f :: rest, i, st => asmGo wedges rest (i + 1) (asmStep wedges st i f)

/-- The complete face pass (psk/importer.py:130-140). -/
def assembleFaces (wedges : List PskWedge) (faces : List PskFace) : AsmState :=
  asmGo wedges faces 0 ⟨[], [], []⟩

/-- Reference predicate: face `i` fails `bm.faces.new`, defined directly by
recursion over earlier faces: its vertices are not distinct, or some earlier
face that itself succeeded has the same vertex set. -/
def degSpec (wedges : List PskWedge) (faces : List PskFace) (i : ℕ) : Bool :=
  !distinct3 (facePts3 wedges (faces.getD i dummyFace)) ||
    ((List.range i).attach.any (fun j =>
      !degSpec wedges faces j.val &&
        decide (sort3 (facePts3 wedges (faces.getD j.val dummyFace)) =
          sort3 (facePts3 wedges (faces.getD i dummyFace)))))
termination_by i
decreasing_by exact List.mem_range.mp j.property

/-- The state the face loop reaches after the first `k` faces. -/
def asmPrefix (wedges : List PskWedge) (faces : List PskFace) (k : ℕ) : AsmState :=
  { acc := ((List.range k).filter (fun j => !degSpec wedges faces j)).map
      (fun j => sort3 (facePts3 wedges (faces.getD j dummyFace)))
    deg := (List.range k).filter (fun j => degSpec wedges faces j)
    fcs := ((List.range k).filter (fun j => !degSpec wedges faces j)).map
      (fun j => (facePts3 wedges (faces.getD j dummyFace),
        (faces.getD j dummyFace).material_index)) }

/-- The primary UV of a wedge as attached to a loop,
`wedge.u, 1.0 - wedge.v` (psk/importer.py:152). -/
def wedgeUV (wedges : List PskWedge) (wi : ℕ) : ℚ × ℚ :=
  ((wedges.getD wi dummyWedge).u, 1 - (wedges.getD wi dummyWedge).v)

/-- A per-face UV pass (psk/importer.py:147-153 and 162-168): walk the faces
in order, skip the faces recorded in `degenerate_face_indices`, and append
`g wedge_index` for the three wedge indices in reversed order. -/
def streamGo (g : ℕ → ℚ × ℚ) (deg : List ℕ) : List PskFace → ℕ → List (ℚ × ℚ)
  | [], _ => []
  | f :: rest, i =>
    (if i ∈ deg then [] else (revWedgeIndices f).map g) ++ streamGo g deg rest (i + 1)

/-- The primary UV layer data (psk/importer.py:144-153). -/
def uvStream (wedges : List PskWedge) (faces : List PskFace) (deg : List ℕ) :
    List (ℚ × ℚ) :=
  streamGo (wedgeUV wedges) deg faces 0

/-- `u, v = psk.extra_uvs[j]` followed by the `u, 1.0 - v` flip
(psk/importer.py:166-167). -/
def extraUVLookup (extraUVs : List (ℚ × ℚ)) (j : ℕ) : ℚ × ℚ :=
  ((extraUVs.getD j (0, 0)).1, 1 - (extraUVs.getD j (0, 0)).2)

/-- The extra-UV channel loop (psk/importer.py:156-169): one layer per
channel, accumulating `wedge_index_offset` by `len(psk.wedges)` after every
channel. -/
def extraChannelsGo (extraUVs : List (ℚ × ℚ)) (wedgeCount : ℕ)
    (faces : List PskFace) (deg : List ℕ) : ℕ → ℕ → List (List (ℚ × ℚ))
  | 0, _ => []
  | c + 1, off =>
    streamGo (fun wi => extraUVLookup extraUVs (off + wi)) deg faces 0 ::
      extraChannelsGo extraUVs wedgeCount faces deg c (off + wedgeCount)

/-- All extra UV layers: `int(len(psk.extra_uvs) / len(psk.wedges))`
channels starting at offset 0 (psk/importer.py:156-169). -/
def extraChannels (extraUVs : List (ℚ × ℚ)) (wedges : List PskWedge)
    (faces : List PskFace) (deg : List ℕ) : List (List (ℚ × ℚ)) :=
  extraChannelsGo extraUVs wedges.length faces deg
    (extraUVs.length / wedges.length) 0

/-- The non-degenerate face indices in order. -/
def nonDegIndices (faces : List PskFace) (deg : List ℕ) : List ℕ :=
  (List.range faces.length).filter (fun i => !(decide (i ∈ deg)))

/-- Three wedges resolving to three distinct points. -/
def c5Wedges : List PskWedge := [⟨0, 0, 0⟩, ⟨1, 0, 0⟩, ⟨2, 0, 0⟩]

/-- Two identical faces over those wedges: each has 3 distinct vertices,
but the second duplicates the first's vertex set. -/
def c5Faces : List PskFace := [⟨0, 1, 2, 0⟩, ⟨0, 1, 2, 0⟩]

/-- Extra-UV block for the C9 witness: 6 entries over 3 wedges, hence 2
channels. -/
def c9Extra : List (ℚ × ℚ) :=
  [(0, 0), (1, 0), (0, 1), (1, 1), (2, 0), (0, 2)]

/-!
### Animation retargeting pipeline: mapping, conversion, cleaning, writing

`PsaImporter.import_psa` (psa/importer.py:57-182), per sequence.  PSA bones
are reduced to their decoded names; the sequence data matrix is passed
alongside, indexed by frame and PSA bone position.  Armature bones are
reduced to the fields the importer reads: name, parent bone name (in
Blender a bone's parent is itself an armature bone), and the cached
`orig_quat`/`orig_loc`/`post_quat` custom properties (the aux-data branch
of psa/importer.py:97-101; the importer reads these verbatim when present).
A PSA bone is mapped iff its name occurs among the armature bone names
(`armature_bone_names.index` succeeds, psa/importer.py:64-67); an unmapped
PSA bone leaves a `None` entry in `import_bones` (psa/importer.py:82-85)
and every later loop skips `None` entries.
-/

/-- An armature bone as read by the PSA importer. -/
structure ArmBone where
  name : String
  parentName : Option String
  orig_loc : Vec3
  orig_quat : Quat
  post_quat : Quat
deriving DecidableEq, Repr

/-- The armature's bone name list (psa/importer.py:59). -/
def armNames (arm : List ArmBone) : List String := arm.map (fun a => a.name)

/-- `set(psa_bone_names).difference(set(armature_bone_names))`
(psa/importer.py:70): the PSA bone names missing from the armature. -/
def missingBoneNames (arm : List ArmBone) (psaNames : List String) : List String :=
  psaNames.filter (fun nm => !(decide (nm ∈ armNames arm)))

/-- The structural armature invariant: every bone's parent name is itself an
armature bone name (in Blender `armature_bone.parent` is a bone of the same
armature). -/
def armParentClosed (arm : List ArmBone) : Bool :=
  arm.all (fun a =>
    match a.parentName with
    | some pn => decide (pn ∈ armNames arm)
    | none => true)

/-- The intermediate data of one mapped bone: its name and the parameters
`calculate_fcurve_data` reads. -/
structure ImpBone where
  name : String
  params : BoneParams
deriving DecidableEq, Repr

/-- The `import_bones` entry for one PSA bone name (psa/importer.py:80-112):
`none` when the name does not occur in the armature; otherwise the armature
bone of that name supplies the cached bind-pose properties, and the bone is
a conversion root iff it has no armature parent whose name occurs in
`psa_bone_names` (psa/importer.py:92-95). -/
def mkImportBone (arm : List ArmBone) (psaNames : List String) (nm : String) :
    Option ImpBone :=
  match arm.find? (fun a => a.name == nm) with
  | none => none
  | some ab =>
    some { name := nm
           params :=
             { orig_loc := ab.orig_loc
               orig_quat := ab.orig_quat
               post_quat := ab.post_quat
               is_root :=
                 match ab.parentName with
                 | some pn => !(decide (pn ∈ psaNames))
                 | none => true } }

/-- `import_bones` (psa/importer.py:77-112): one `Option` entry per PSA
bone, in PSA bone order. -/
def mkImportBones (arm : List ArmBone) (psaNames : List String) :
    List (Option ImpBone) :=
  psaNames.map (mkImportBone arm psaNames)

/-- The leading bone column of the sequence data matrix. -/
def colZero (m : ℕ → ℕ → KeyData) : ℕ → KeyData := fun f => m f 0

/-- The matrix without its leading bone column. -/
def dropCol (m : ℕ → ℕ → KeyData) : ℕ → ℕ → KeyData := fun f b => m f (b + 1)

/-- The matrix without its leading `k` bone columns. -/
def dropCols (m : ℕ → ℕ → KeyData) (k : ℕ) : ℕ → ℕ → KeyData :=
  fun f b => m f (b + k)

/-- The matrix with the column of bone position `k` deleted (the sequence
matrix of the same PSA with that bone removed). -/
def delCol (m : ℕ → ℕ → KeyData) (k : ℕ) : ℕ → ℕ → KeyData :=
  fun f b => if b < k then m f b else m f (b + 1)

/-- The conversion loop's action on one bone column (psa/importer.py:143-151):
a mapped bone's samples are all rewritten through `calculate_fcurve_data`
(each cell from its own raw value); an unmapped (`None`) bone is skipped and
its column is left untouched.  The Boolean records whether the loop
converted the column. -/
def convertColM (ob : Option BoneParams) (col : ℕ → KeyData) :
    (ℕ → KeyData) × Bool :=
  match ob with
  | some p => (fun f => calculate_fcurve_data p (col f), true)
  | none => (col, false)

/-- The sequence data matrix after the world-to-local conversion loop. -/
def convertMatrix (ibs : List (Option ImpBone)) (m : ℕ → ℕ → KeyData) :
    ℕ → ℕ → KeyData :=
  fun f b =>
    (convertColM ((ibs.getD b none).map (fun ib => ib.params)) (fun i => m i b)).1 f

/-- Whether the conversion loop converted the column of bone position `b`. -/
def convertMark (ibs : List (Option ImpBone)) (m : ℕ → ℕ → KeyData) (b : ℕ) : Bool :=
  (convertColM ((ibs.getD b none).map (fun ib => ib.params)) (fun i => m i b)).2

/-- The keep decision for one converted column (psa/importer.py:153-169):
with cleaning enabled, channel `c` of frame `f` is kept per `keepFrame` with
the hard-coded threshold; with cleaning disabled the write matrix keeps its
initial ones. -/
def keepCol (clean : Bool) (col : ℕ → KeyData) (f : ℕ) (c : Fin 7) : Bool :=
  if clean then keepFrame (1/1000) (fun i => (col i).ch c) f else true

/-- The keyframes written for one mapped bone (psa/importer.py:171-182):
channel `c` at frame `f` is inserted iff its write-matrix entry is set, with
the converted value. -/
def writesOf (clean : Bool) (col : ℕ → KeyData) (f : ℕ) (c : Fin 7) : Option ℚ :=
  if keepCol clean col f c then some ((col f).ch c) else none

/-- The per-sequence pipeline over the `import_bones` list, consuming the
matrix column by column (mirroring `enumerate(import_bones)`): an unmapped
bone contributes nothing; a mapped bone contributes its name and its written
keyframes (conversion, then cleaning, then writing). -/
def pipelineOut (clean : Bool) :
    List (Option ImpBone) → (ℕ → ℕ → KeyData) → List (String × (ℕ → Fin 7 → Option ℚ))
  | [], _ => []
  | ob :: rest, m =>
    match ob with
    | none => pipelineOut clean rest (dropCol m)
    | some ib =>
      (ib.name, writesOf clean (convertColM (some ib.params) (colZero m)).1) ::
        pipelineOut clean rest (dropCol m)

/-- The full retarget of one sequence: bone mapping followed by the
per-bone conversion/cleaning/write pipeline. -/
def psaImport (clean : Bool) (arm : List ArmBone) (psaNames : List String)
    (m : ℕ → ℕ → KeyData) : List (String × (ℕ → Fin 7 → Option ℚ)) :=
  pipelineOut clean (mkImportBones arm psaNames) m

/-- A one-bone armature named Root with identity cached bind pose. -/
def c6Arm : List ArmBone :=
  [{ name := "Root", parentName := none, orig_loc := vzero,
     orig_quat := qone, post_quat := qone }]

/-- A constant sequence data matrix. -/
def c6m : ℕ → ℕ → KeyData := fun _ _ => ⟨1, 0, 0, 0, 0, 0, 0⟩

/-- A constant raw world-space column with a non-identity rotation. -/
def c7m : ℕ → ℕ → KeyData := fun _ _ => ⟨0, 0, 1, 0, 2, 3, 4⟩

/-!
### Vertex colors

`PskImporter.import_psk`, vertex colors (psk/importer.py:171-198).  The
per-vertex color buffer is initialized with the `inf` sentinel
(`np.full((len(points), 4), inf)`); components are modelled as `WithTop ℚ`
with `⊤` for `inf`, and wedge colors (`psk.vertex_colors[wedge_index]
.normalized()`) are finite rationals.  The resolution loop walks the wedges
in order: a wedge whose vertex already holds a color (first component not
`inf`) different from the wedge's color appends the vertex to the ambiguous
list and leaves the stored color; otherwise it stores the wedge's color.
`rgb_to_srgb` lives in `helpers.py`, which is not among the sources; it is
kept abstract as a component map applied to the first three components of
every buffer row when the sRGB color space is requested.  The final loop
writes `vertex_colors[loop.vertex_index]` per mesh loop; numpy row indexing
always yields an array row, never `None`, so the lookup is modelled as
`some` of the row, mirroring the code's `is not None` test.
-/

/-- A stored per-vertex color row; `⊤` is the `inf` sentinel. -/
structure ColorRow where
  r : WithTop ℚ
  g : WithTop ℚ
  b : WithTop ℚ
  a : WithTop ℚ
deriving DecidableEq

/-- A finite (normalized) per-wedge color. -/
structure WedgeColor where
  r : ℚ
  g : ℚ
  b : ℚ
  a : ℚ
deriving DecidableEq, Repr

/-- The all-`inf` row the buffer is initialized with
(psk/importer.py:174). -/
def topRow : ColorRow := ⟨⊤, ⊤, ⊤, ⊤⟩

/-- A finite wedge color as a stored buffer row. -/
def liftColor (c : WedgeColor) : ColorRow :=
  ⟨(c.r : WithTop ℚ), (c.g : WithTop ℚ), (c.b : WithTop ℚ), (c.a : WithTop ℚ)⟩

/-- The resolution loop (psk/importer.py:178-184) over the remaining
`(point_index, normalized color)` pairs, carrying the color buffer and the
ambiguous list. -/
def resolveGo : List (ℕ × WedgeColor) → (ℕ → ColorRow) → List ℕ →
    (ℕ → ColorRow) × List ℕ
  | [], vc, amb => (vc, amb)
  | (p, c) :: rest, vc, amb =>
    if (vc p).r ≠ ⊤ ∧ vc p ≠ liftColor c then
      resolveGo rest vc (amb ++ [p])
    else
      resolveGo rest (updF vc p (liftColor c)) amb

/-- The resolved buffer and ambiguous vertex list of a wedge list. -/
def resolveColors (wps : List (ℕ × WedgeColor)) : (ℕ → ColorRow) × List ℕ :=
  resolveGo wps (fun _ => topRow) []

/-- The sRGB step (psk/importer.py:186-188): when requested, the conversion
`g` is applied to the first three components of every resolved row; alpha is
untouched. -/
def srgbRow (ap : Bool) (g : WithTop ℚ → WithTop ℚ) (row : ColorRow) : ColorRow :=
  if ap then ⟨g row.r, g row.g, g row.b, row.a⟩ else row

/-- The numpy row lookup `vertex_colors[loop.vertex_index]`
(psk/importer.py:191): always an array row, never `None`. -/
def lookupRow (vc : ℕ → ColorRow) (vi : ℕ) : Option ColorRow := some (vc vi)

/-- The loop-color write (psk/importer.py:190-195): for each mesh loop the
looked-up row when it `is not None`, else opaque white. -/
def loopColorsOut (vc : ℕ → ColorRow) (loops : List ℕ) : List ColorRow :=
  loops.map (fun vi =>
    match lookupRow vc vi with
    | some c => c
    | none => ⟨(1 : ℚ), (1 : ℚ), (1 : ℚ), (1 : ℚ)⟩)

/-- The first color carried by a wedge at vertex `p`, if any. -/
def firstWedgeColor (wps : List (ℕ × WedgeColor)) (p : ℕ) : Option WedgeColor :=
  (wps.find? (fun e => e.1 == p)).map (fun e => e.2)

/-- Two wedges at vertex 0 with conflicting colors. -/
def c8Wps : List (ℕ × WedgeColor) := [(0, ⟨1, 0, 0, 1⟩), (0, ⟨0, 1, 0, 1⟩)]

/-- C1 counterexample.  At a unit bind-pose quaternion and a unit key
rotation (so the claim's hypotheses about the data hold, including
`post_quat = conjugate(orig_quat)`), the code's output differs from the spec
formula read with quaternion composition in the order the spec writes it. -/
theorem c1_counterexample :
    qnormSq c1Bone.orig_quat = 1 ∧
    qnormSq ⟨c1Key.rw, c1Key.rx, c1Key.ry, c1Key.rz⟩ = 1 ∧
    c1Bone.post_quat = qconj c1Bone.orig_quat ∧
    calculate_fcurve_data c1Bone c1Key ≠ spec_fcurve_data c1Bone c1Key := by
  refine ⟨by norm_num [qnormSq, c1Bone], by norm_num [qnormSq, c1Key],
    by norm_num [c1Bone, qconj], ?_⟩
  intro h
  have h3 := congrArg KeyData.rz h
  simp only [calculate_fcurve_data, spec_fcurve_data, c1Bone, c1Key,
    rotateBy, qmul, qconj, rotVec, vsub, vzero] at h3
  norm_num at h3

/-- C1 amended: the code computes exactly the spec's conversion formula once
every composition `a ∘ b` in the formula is read as mathutils' `a.rotate(b)`
(the product `b * a`, apply-left-first); the root-bone extra conjugation and
the local-translation formula are as the spec states. -/
theorem c1_local_space_conversion (ib : BoneParams) (key : KeyData) :
    calculate_fcurve_data ib key = spec_fcurve_data_rev ib key := rfl

theorem lastKept_zero (eps : ℚ) (v : ℕ → ℚ) : lastKept eps v 0 = v 0 := rfl

theorem lastKept_succ (eps : ℚ) (v : ℕ → ℚ) (i : ℕ) :
    lastKept eps v (i + 1) =
      if |v (i + 1) - lastKept eps v i| < eps then lastKept eps v i else v (i + 1) := rfl

theorem keepFrame_succ (eps : ℚ) (v : ℕ → ℚ) (i : ℕ) :
    keepFrame eps v (i + 1) =
      if |v (i + 1) - lastKept eps v i| < eps then false else true := rfl

theorem lastKeptIdx_succ (eps : ℚ) (v : ℕ → ℚ) (i : ℕ) :
    lastKeptIdx eps v (i + 1) =
      if keepFrame eps v (i + 1) then i + 1 else lastKeptIdx eps v i := rfl

theorem lastKept_of_kept (eps : ℚ) (v : ℕ → ℚ) :
    ∀ i, keepFrame eps v i = true → lastKept eps v i = v i := by
  intro i hi
  cases i with
  | zero => rfl
  | succ m =>
    rw [keepFrame_succ] at hi
    rw [lastKept_succ]
    by_cases h : |v (m + 1) - lastKept eps v m| < eps
    · rw [if_pos h] at hi; exact absurd hi (by simp)
    · rw [if_neg h]

theorem lastKept_eq_idx (eps : ℚ) (v : ℕ → ℚ) :
    ∀ i, lastKept eps v i = v (lastKeptIdx eps v i) := by
  intro i
  induction i with
  | zero => rfl
  | succ m ih =>
    rw [lastKept_succ, lastKeptIdx_succ, keepFrame_succ]
    by_cases h : |v (m + 1) - lastKept eps v m| < eps
    · rw [if_pos h, if_neg (by rw [if_pos h]; simp), ih]
    · rw [if_neg h, if_pos (by rw [if_neg h])]

theorem keepFrame_succ_iff (eps : ℚ) (v : ℕ → ℚ) (i : ℕ) :
    keepFrame eps v (i + 1) = true ↔ eps ≤ |v (i + 1) - lastKept eps v i| := by
  rw [keepFrame_succ]
  by_cases h : |v (i + 1) - lastKept eps v i| < eps
  · simp [if_pos h, not_le.mpr h]
  · simp [if_neg h, not_lt.mp h]

theorem lastKeptIdx_stable (eps : ℚ) (v : ℕ → ℚ) :
    ∀ j i, i ≤ j → keepFrame eps v i = true →
      (∀ k, i < k → k ≤ j → keepFrame eps v k = false) →
      lastKeptIdx eps v j = i := by
  intro j
  induction j with
  | zero =>
    intro i hij _ _
    have h0 : i = 0 := Nat.le_zero.mp hij
    subst h0
    rfl
  | succ m ih =>
    intro i hij hi hmid
    rcases Nat.lt_or_ge i (m + 1) with hlt | hge
    · have hk : keepFrame eps v (m + 1) = false := hmid (m + 1) hlt (le_refl _)
      rw [lastKeptIdx_succ, hk]
      simp only [Bool.false_eq_true, if_false]
      exact ih i (Nat.lt_succ_iff.mp hlt) hi
        (fun k hik hkm => hmid k hik (Nat.le_succ_of_le hkm))
    · have hieq : i = m + 1 := Nat.le_antisymm hij hge
      subst hieq
      rw [lastKeptIdx_succ, hi]
      simp

theorem kept_gap (eps : ℚ) (v : ℕ → ℚ) (i j : ℕ) (hij : i < j)
    (hi : keepFrame eps v i = true) (hj : keepFrame eps v j = true)
    (hmid : ∀ k, i < k → k < j → keepFrame eps v k = false) :
    eps ≤ |v j - v i| := by
  obtain ⟨m, rfl⟩ : ∃ m, j = m + 1 :=
    ⟨j - 1, by omega⟩
  have h1 := (keepFrame_succ_iff eps v m).mp hj
  have h2 : lastKeptIdx eps v m = i :=
    lastKeptIdx_stable eps v m i (by omega) hi
      (fun k hik hkm => hmid k hik (by omega))
  rwa [lastKept_eq_idx, h2] at h1

/-- C2: per bone, per channel, frame 0 is always kept; a later frame is
kept iff its value differs from the value at the last kept frame by at least
epsilon; a dropped frame does not advance the last-kept reference; between
two consecutive kept frames the values differ by at least epsilon; with
epsilon = 0 every frame is kept; and the importer runs this with the
hard-coded epsilon 0.001. -/
theorem c2_keyframe_cleaning (eps : ℚ) (m : ℕ → ℕ → KeyData) (b : ℕ) (c : Fin 7) :
    keepFrame eps (channelOf m b c) 0 = true ∧
    (∀ i, 0 < i → (keepFrame eps (channelOf m b c) i = true ↔
      eps ≤ |channelOf m b c i - channelOf m b c (lastKeptIdx eps (channelOf m b c) (i - 1))|)) ∧
    (∀ i, 0 < i → keepFrame eps (channelOf m b c) i = false →
      lastKeptIdx eps (channelOf m b c) i = lastKeptIdx eps (channelOf m b c) (i - 1)) ∧
    (∀ i j, i < j → keepFrame eps (channelOf m b c) i = true →
      keepFrame eps (channelOf m b c) j = true →
      (∀ k, i < k → k < j → keepFrame eps (channelOf m b c) k = false) →
      eps ≤ |channelOf m b c j - channelOf m b c i|) ∧
    (eps = 0 → ∀ i, keepFrame eps (channelOf m b c) i = true) ∧
    clean_keys_matrix m b c = keepFrame (1/1000) (channelOf m b c) := by
  set v := channelOf m b c with hv
  refine ⟨rfl, ?_, ?_, ?_, ?_, rfl⟩
  · intro i hi
    obtain ⟨k, rfl⟩ : ∃ k, i = k + 1 := ⟨i - 1, by omega⟩
    simp only [Nat.add_sub_cancel]
    rw [keepFrame_succ_iff, lastKept_eq_idx]
  · intro i hi hdrop
    obtain ⟨k, rfl⟩ : ∃ k, i = k + 1 := ⟨i - 1, by omega⟩
    simp only [Nat.add_sub_cancel]
    rw [lastKeptIdx_succ, hdrop]
    simp
  · exact fun i j hij hi hj hmid => kept_gap eps v i j hij hi hj hmid
  · rintro rfl i
    cases i with
    | zero => rfl
    | succ k =>
      rw [keepFrame_succ_iff]
      exact abs_nonneg _

/-- C2 witness: on the channel `0, 2, 2, ...` with epsilon 0.001, frame 0 is
kept and the iff characterization holds at frame 2. -/
theorem c2_witness :
    keepFrame (1/1000) (channelOf c2m 0 0) 0 = true ∧
    (keepFrame (1/1000) (channelOf c2m 0 0) 2 = true ↔
      1/1000 ≤ |channelOf c2m 0 0 2 -
        channelOf c2m 0 0 (lastKeptIdx (1/1000) (channelOf c2m 0 0) 1)|) :=
  ⟨(c2_keyframe_cleaning (1/1000) c2m 0 0).1,
   (c2_keyframe_cleaning (1/1000) c2m 0 0).2.1 2 (by decide)⟩

theorem updF_apply_same {α : Type} (f : ℕ → α) (i : ℕ) (a : α) :
    updF f i a i = a := by
  simp [updF]

theorem updF_apply_other {α : Type} (f : ℕ → α) (i j : ℕ) (a : α) (h : j ≠ i) :
    updF f i a j = f j := by
  simp [updF, h]

theorem wRotAux_root (bones : List PskBoneRec) (b : ℕ)
    (hb : isRootBone bones b = true) : wRotAux bones b = initRot bones b := by
  rw [wRotAux]
  simp [hb]

theorem wRotAux_nonroot (bones : List PskBoneRec) (b : ℕ)
    (hb : isRootBone bones b = false) :
    wRotAux bones b =
      matMul
        (if clampParent bones b < b then wRotAux bones (clampParent bones b)
         else initRot bones (clampParent bones b))
        (quatToMat (qconj (boneAt bones b).rotation)) := by
  conv_lhs => rw [wRotAux]
  rw [hb]
  simp only [Bool.false_eq_true, if_false]
  by_cases h : clampParent bones b < b
  · rw [dif_pos h, if_pos h]
  · rw [dif_neg h, if_neg h]

theorem wTransAux_root (bones : List PskBoneRec) (b : ℕ)
    (hb : isRootBone bones b = true) : wTransAux bones b = initTrans bones b := by
  rw [wTransAux]
  simp [hb]

theorem wTransAux_nonroot (bones : List PskBoneRec) (b : ℕ)
    (hb : isRootBone bones b = false) :
    wTransAux bones b =
      vadd
        (if clampParent bones b < b then wTransAux bones (clampParent bones b)
         else initTrans bones (clampParent bones b))
        (matVec
          (if clampParent bones b < b then wRotAux bones (clampParent bones b)
           else initRot bones (clampParent bones b))
          (boneAt bones b).location) := by
  conv_lhs => rw [wTransAux]
  rw [hb]
  simp only [Bool.false_eq_true, if_false]
  by_cases h : clampParent bones b < b
  · rw [dif_pos h, dif_pos h, if_pos h, if_pos h]
  · rw [dif_neg h, dif_neg h, if_neg h, if_neg h]

theorem stateAfter_zero (bones : List PskBoneRec) :
    stateAfter bones 0 = (fun i => initRot bones i, fun i => initTrans bones i) := by
  unfold stateAfter
  constructor <;> funext i <;> simp

theorem buildGo_isOk (bones : List PskBoneRec) :
    ∀ (l : List ℕ) (st : (ℕ → Mat3) × (ℕ → Vec3)),
      (buildGo bones l st).isOk =
        l.all (fun b => isRootBone bones b || decide (clampParent bones b < bones.length)) := by
  intro l
  induction l with
  | nil => intro st; rfl
  | cons b rest ih =>
    intro st
    rw [buildGo, List.all_cons]
    unfold buildStep
    by_cases hroot : isRootBone bones b = true
    · rw [if_pos hroot, hroot, ih]
      simp
    · rw [if_neg hroot]
      rw [Bool.not_eq_true] at hroot
      rw [hroot]
      by_cases hp : clampParent bones b < bones.length
      · rw [if_pos hp, ih]
        simp [hp]
      · rw [if_neg hp]
        have he : (Except.error "IndexError" :
            Except String ((ℕ → Mat3) × (ℕ → Vec3))).isOk = false := rfl
        rw [he]
        simp [hp]

theorem buildGo_cons_ok (bones : List PskBoneRec) (b : ℕ) (rest : List ℕ)
    (st st2 : (ℕ → Mat3) × (ℕ → Vec3)) (h : buildStep bones st b = .ok st2) :
    buildGo bones (b :: rest) st = buildGo bones rest st2 := by
  rw [buildGo, h]

theorem buildGo_range' (bones : List PskBoneRec) :
    ∀ (cnt s : ℕ),
      (∀ b, s ≤ b → b < s + cnt → clampParent bones b < bones.length) →
      buildGo bones (List.range' s cnt) (stateAfter bones s) =
        .ok (stateAfter bones (s + cnt)) := by
  intro cnt
  induction cnt with
  | zero =>
    intro s _
    rfl
  | succ m ih =>
    intro s hall
    have hrng : List.range' s (m + 1) = s :: List.range' (s + 1) m := rfl
    have hstep : buildStep bones (stateAfter bones s) s = .ok (stateAfter bones (s + 1)) := by
      unfold buildStep
      by_cases hroot : isRootBone bones s = true
      · rw [if_pos hroot]
        apply congrArg Except.ok
        simp only [stateAfter]
        rw [Prod.mk.injEq]
        constructor <;> funext i <;>
          rcases Nat.lt_trichotomy i s with h | h | h
        · simp [h, Nat.lt_succ_of_lt h]
        · subst h
          have h2 : i < i + 1 := Nat.lt_succ_self i
          simp [h2, wRotAux_root bones i hroot]
        · have h1 : ¬ i < s := by omega
          have h2 : ¬ i < s + 1 := by omega
          simp [h1, h2]
        · simp [h, Nat.lt_succ_of_lt h]
        · subst h
          have h2 : i < i + 1 := Nat.lt_succ_self i
          simp [h2, wTransAux_root bones i hroot]
        · have h1 : ¬ i < s := by omega
          have h2 : ¬ i < s + 1 := by omega
          simp [h1, h2]
      · rw [if_neg hroot]
        rw [Bool.not_eq_true] at hroot
        have hp : clampParent bones s < bones.length :=
          hall s (le_refl _) (by omega)
        rw [if_pos hp]
        apply congrArg Except.ok
        simp only [stateAfter]
        rw [Prod.mk.injEq]
        constructor
        · funext i
          by_cases hi : i = s
          · subst hi
            rw [updF_apply_same, if_pos (Nat.lt_succ_self i)]
            rw [wRotAux_nonroot bones i hroot]
          · rw [updF_apply_other _ _ _ _ hi]
            by_cases h2 : i < s
            · rw [if_pos h2, if_pos (show i < s + 1 from by omega)]
            · rw [if_neg h2, if_neg (show ¬ i < s + 1 from by omega)]
        · funext i
          by_cases hi : i = s
          · subst hi
            rw [updF_apply_same, if_pos (Nat.lt_succ_self i)]
            rw [wTransAux_nonroot bones i hroot]
          · rw [updF_apply_other _ _ _ _ hi]
            by_cases h2 : i < s
            · rw [if_pos h2, if_pos (show i < s + 1 from by omega)]
            · rw [if_neg h2, if_neg (show ¬ i < s + 1 from by omega)]
    rw [hrng, buildGo_cons_ok bones s (List.range' (s + 1) m) _ _ hstep]
    rw [ih (s + 1) (fun b hb1 hb2 => hall b (by omega) (by omega))]
    rw [show s + 1 + m = s + (m + 1) from by omega]

theorem build_isOk_iff (bones : List PskBoneRec) :
    (buildWorld bones).isOk = true ↔
      ∀ b, b < bones.length → clampParent bones b < bones.length := by
  unfold buildWorld
  rw [buildGo_isOk, List.all_eq_true]
  constructor
  · intro h b hb
    have hmem : b ∈ List.range bones.length := List.mem_range.mpr hb
    have hor := h b hmem
    simp only [Bool.or_eq_true] at hor
    rcases hor with hr | hc
    · have hc0 : clampParent bones b = 0 := by
        unfold isRootBone at hr
        simp only [Bool.and_eq_true, beq_iff_eq] at hr
        exact hr.2
      omega
    · exact of_decide_eq_true hc
  · intro h b hmem
    have hb : b < bones.length := List.mem_range.mp hmem
    have := h b hb
    simp [this]

theorem build_ok_state (bones : List PskBoneRec)
    (hok : (buildWorld bones).isOk = true) :
    buildOrDefault bones = stateAfter bones bones.length := by
  have hall : ∀ b, b < bones.length → clampParent bones b < bones.length :=
    (build_isOk_iff bones).mp hok
  have h0 : List.range bones.length = List.range' 0 bones.length := by
    rw [List.range_eq_range']
  have hrun := buildGo_range' bones bones.length 0
    (fun b hb1 hb2 => hall b (by omega))
  rw [Nat.zero_add, stateAfter_zero] at hrun
  unfold buildOrDefault buildWorld
  rw [h0, hrun]

/-- C3 amended: for every non-root bone whose parent comes strictly earlier
in the bone array (the well-formedness the spec's invariant demands), the
built world transform satisfies
`world_rotation[b] = world_rotation[parent] * mat(conj(local_rotation[b]))`
(the conjugated local rotation composed with the parent's world rotation,
with the parent's rotation applied on the left, i.e. the two factors in the
reverse of the order the spec writes) and
`world_translation[b] = world_translation[parent] + rotate(local_translation[b], world_rotation[parent])`
exactly as the spec states. -/
theorem c3_hierarchy_composition (bones : List PskBoneRec) (b : ℕ)
    (hok : (buildWorld bones).isOk = true) (hb : b < bones.length)
    (hroot : isRootBone bones b = false) (hp : clampParent bones b < b) :
    (buildOrDefault bones).1 b =
      matMul ((buildOrDefault bones).1 (clampParent bones b))
        (quatToMat (qconj (boneAt bones b).rotation)) ∧
    (buildOrDefault bones).2 b =
      vadd ((buildOrDefault bones).2 (clampParent bones b))
        (matVec ((buildOrDefault bones).1 (clampParent bones b))
          (boneAt bones b).location) := by
  have hst := build_ok_state bones hok
  have hpn : clampParent bones b < bones.length := by omega
  rw [hst]
  have h1 : (stateAfter bones bones.length).1 b = wRotAux bones b := by
    simp only [stateAfter]
    rw [if_pos hb]
  have h2 : (stateAfter bones bones.length).1 (clampParent bones b) =
      wRotAux bones (clampParent bones b) := by
    simp only [stateAfter]
    rw [if_pos hpn]
  have h3 : (stateAfter bones bones.length).2 b = wTransAux bones b := by
    simp only [stateAfter]
    rw [if_pos hb]
  have h4 : (stateAfter bones bones.length).2 (clampParent bones b) =
      wTransAux bones (clampParent bones b) := by
    simp only [stateAfter]
    rw [if_pos hpn]
  rw [h1, h2, h3, h4]
  constructor
  · rw [wRotAux_nonroot bones b hroot, if_pos hp]
  · rw [wTransAux_nonroot bones b hroot, if_pos hp, if_pos hp]

/-- C3 witness: the two-bone chain builds successfully and the amended
composition law holds at the child bone. -/
theorem c3_witness :
    (buildWorld c3Bones).isOk = true ∧
    ((buildOrDefault c3Bones).1 1 =
      matMul ((buildOrDefault c3Bones).1 (clampParent c3Bones 1))
        (quatToMat (qconj (boneAt c3Bones 1).rotation)) ∧
    (buildOrDefault c3Bones).2 1 =
      vadd ((buildOrDefault c3Bones).2 (clampParent c3Bones 1))
        (matVec ((buildOrDefault c3Bones).1 (clampParent c3Bones 1))
          (boneAt c3Bones 1).location)) :=
  ⟨by decide,
   c3_hierarchy_composition c3Bones 1 (by decide) (by decide) (by decide) (by decide)⟩

/-- C3 counterexample: on the two-bone chain the build succeeds, but the
child's world rotation is not
`mat(conj(local_rotation[1])) * world_rotation[0]`, the spec's composition
order read left-to-right: the code composes the two rotations the other way
around. -/
theorem c3_counterexample :
    (buildWorld c3Bones).isOk = true ∧
    (buildOrDefault c3Bones).1 1 ≠
      matMul (quatToMat (qconj (boneAt c3Bones 1).rotation))
        ((buildOrDefault c3Bones).1 0) := by
  refine ⟨by decide, ?_⟩
  intro h
  have hv1 : (buildOrDefault c3Bones).1 1 =
      matMul (quatToMat (⟨3/5, 4/5, 0, 0⟩ : Quat))
        (quatToMat (qconj (⟨0, 0, 1, 0⟩ : Quat))) := rfl
  have hv0 : (buildOrDefault c3Bones).1 0 = quatToMat (⟨3/5, 4/5, 0, 0⟩ : Quat) := rfl
  have hb1 : (boneAt c3Bones 1).rotation = (⟨0, 0, 1, 0⟩ : Quat) := rfl
  rw [hv1, hv0, hb1] at h
  have h12 := congrArg Mat3.m12 h
  simp only [matMul, quatToMat, qconj] at h12
  norm_num at h12

/-- C4 counterexample: a bone array with a negative `parent_index` (and one
with a two-bone parent cycle) builds without any structural error: the
negative index is silently clamped to 0 and cycles are never detected, so
the build does not fail as the claim requires. -/
theorem c4_counterexample :
    (boneAt c4BonesNeg 1).parent_index = -5 ∧
    (buildWorld c4BonesNeg).isOk = true ∧
    clampParent c4BonesCycle 1 = 2 ∧
    clampParent c4BonesCycle 2 = 1 ∧
    (buildWorld c4BonesCycle).isOk = true := by
  refine ⟨by decide, by decide, by decide, by decide, by decide⟩

/-- C4 amended: the only structural failure of the skeleton build is an
unhandled `IndexError`: the build aborts (nothing is returned) exactly when
some bone's clamped parent index is at least the bone count.  Negative
parent indices are clamped to 0 rather than rejected, and parent cycles are
not detected (a forward or self reference silently reads the parent's
initial identity transform). -/
theorem c4_structural_error (bones : List PskBoneRec) :
    (buildWorld bones).isOk = true ↔
      ∀ b, b < bones.length → clampParent bones b < bones.length :=
  build_isOk_iff bones

/-- C4 witness: the iff applied to a concrete bone array whose clamped
parent indices are in range. -/
theorem c4_witness : (buildWorld c4BonesNeg).isOk = true :=
  (c4_structural_error c4BonesNeg).mpr (by decide)

theorem degSpec_iff (wedges : List PskWedge) (faces : List PskFace) (i : ℕ) :
    degSpec wedges faces i = true ↔
      distinct3 (facePts3 wedges (faces.getD i dummyFace)) = false ∨
      ∃ j, j < i ∧ degSpec wedges faces j = false ∧
        sort3 (facePts3 wedges (faces.getD j dummyFace)) =
          sort3 (facePts3 wedges (faces.getD i dummyFace)) := by
  conv_lhs => rw [degSpec]
  simp only [Bool.or_eq_true, Bool.not_eq_true', List.any_eq_true, List.mem_attach,
    true_and, Subtype.exists, List.mem_range, Bool.and_eq_true, decide_eq_true_eq,
    exists_prop]

theorem mem_asmPrefix_acc (wedges : List PskWedge) (faces : List PskFace) (k : ℕ)
    (x : ℕ × ℕ × ℕ) :
    x ∈ (asmPrefix wedges faces k).acc ↔
      ∃ j, j < k ∧ degSpec wedges faces j = false ∧
        sort3 (facePts3 wedges (faces.getD j dummyFace)) = x := by
  simp only [asmPrefix, List.mem_map, List.mem_filter, List.mem_range,
    Bool.not_eq_true']
  constructor
  · rintro ⟨j, ⟨hj, hd⟩, hx⟩
    exact ⟨j, hj, hd, hx⟩
  · rintro ⟨j, hj, hd, hx⟩
    exact ⟨j, ⟨hj, hd⟩, hx⟩

theorem asmStep_prefix (wedges : List PskWedge) (faces : List PskFace) (k : ℕ) :
    asmStep wedges (asmPrefix wedges faces k) k (faces.getD k dummyFace) =
      asmPrefix wedges faces (k + 1) := by
  unfold asmStep
  by_cases hd : degSpec wedges faces k = true
  · have hcond : (distinct3 (facePts3 wedges (faces.getD k dummyFace)) &&
        !(decide (sort3 (facePts3 wedges (faces.getD k dummyFace)) ∈
          (asmPrefix wedges faces k).acc))) = false := by
      rcases (degSpec_iff wedges faces k).mp hd with h | ⟨j, hj, hdj, hsort⟩
      · rw [h]
        rfl
      · have hmem : sort3 (facePts3 wedges (faces.getD k dummyFace)) ∈
            (asmPrefix wedges faces k).acc :=
          (mem_asmPrefix_acc wedges faces k _).mpr ⟨j, hj, hdj, hsort⟩
        rw [decide_eq_true hmem]
        simp
    simp only [hcond, Bool.false_eq_true, if_false]
    simp [asmPrefix, List.range_succ, List.filter_append, List.map_append, hd]
  · rw [Bool.not_eq_true] at hd
    have hdist : distinct3 (facePts3 wedges (faces.getD k dummyFace)) = true := by
      by_contra hq
      rw [Bool.not_eq_true] at hq
      exact absurd ((degSpec_iff wedges faces k).mpr (Or.inl hq)) (by simp [hd])
    have hmem : sort3 (facePts3 wedges (faces.getD k dummyFace)) ∉
        (asmPrefix wedges faces k).acc := by
      intro hm
      obtain ⟨j, hj, hdj, hsort⟩ := (mem_asmPrefix_acc wedges faces k _).mp hm
      exact absurd ((degSpec_iff wedges faces k).mpr (Or.inr ⟨j, hj, hdj, hsort⟩))
        (by simp [hd])
    have hcond : (distinct3 (facePts3 wedges (faces.getD k dummyFace)) &&
        !(decide (sort3 (facePts3 wedges (faces.getD k dummyFace)) ∈
          (asmPrefix wedges faces k).acc))) = true := by
      rw [hdist, decide_eq_false hmem]
      rfl
    simp only [hcond, if_true]
    simp [asmPrefix, List.range_succ, List.filter_append, List.map_append, hd]

theorem asmGo_prefix (wedges : List PskWedge) (faces : List PskFace) :
    ∀ (rest : List PskFace) (k : ℕ), rest = faces.drop k → k ≤ faces.length →
      asmGo wedges rest k (asmPrefix wedges faces k) =
        asmPrefix wedges faces faces.length := by
  intro rest
  induction rest with
  | nil =>
    intro k hk hkn
    have hke : k = faces.length := le_antisymm hkn (List.drop_eq_nil_iff.mp hk.symm)
    rw [asmGo, hke]
  | cons f tl ih =>
    intro k hk hkn
    have hlt : k < faces.length := by
      by_contra hge
      have hnil : faces.drop k = [] := List.drop_eq_nil_iff.mpr (by omega)
      rw [hnil] at hk
      exact absurd hk (by simp)
    have hdrop : faces.drop k = faces[k] :: faces.drop (k + 1) :=
      (List.cons_getElem_drop_succ (h := hlt)).symm
    rw [hdrop] at hk
    obtain ⟨hf, htl⟩ : f = faces[k] ∧ tl = faces.drop (k + 1) := by
      injection hk with h1 h2
      exact ⟨h1, h2⟩
    have hgd : faces.getD k dummyFace = faces[k] := by
      rw [List.getD_eq_getElem?_getD, List.getElem?_eq_getElem hlt]
      rfl
    rw [asmGo, hf, ← hgd, asmStep_prefix]
    exact ih (k + 1) htl (by omega)

theorem assembleFaces_eq (wedges : List PskWedge) (faces : List PskFace) :
    assembleFaces wedges faces = asmPrefix wedges faces faces.length := by
  have h0 : asmPrefix wedges faces 0 = ⟨[], [], []⟩ := rfl
  have hrun := asmGo_prefix wedges faces faces 0 (List.drop_zero faces).symm (by omega)
  rw [h0] at hrun
  exact hrun

theorem streamGo_drop (g : ℕ → ℚ × ℚ) (deg : List ℕ) (faces : List PskFace) :
    ∀ (rest : List PskFace) (k : ℕ), rest = faces.drop k → k ≤ faces.length →
      streamGo g deg rest k =
        (((List.range' k (faces.length - k)).filter (fun i => !(decide (i ∈ deg)))).map
          (fun i => (revWedgeIndices (faces.getD i dummyFace)).map g)).flatten := by
  intro rest
  induction rest with
  | nil =>
    intro k hk hkn
    have hke : k = faces.length := le_antisymm hkn (List.drop_eq_nil_iff.mp hk.symm)
    rw [hke, Nat.sub_self]
    rfl
  | cons f tl ih =>
    intro k hk hkn
    have hlt : k < faces.length := by
      by_contra hge
      have hnil : faces.drop k = [] := List.drop_eq_nil_iff.mpr (by omega)
      rw [hnil] at hk
      exact absurd hk (by simp)
    have hdrop : faces.drop k = faces[k] :: faces.drop (k + 1) :=
      (List.cons_getElem_drop_succ (h := hlt)).symm
    rw [hdrop] at hk
    obtain ⟨hf, htl⟩ : f = faces[k] ∧ tl = faces.drop (k + 1) := by
      injection hk with h1 h2
      exact ⟨h1, h2⟩
    have hgd : faces.getD k dummyFace = faces[k] := by
      rw [List.getD_eq_getElem?_getD, List.getElem?_eq_getElem hlt]
      rfl
    have hcnt : faces.length - k = (faces.length - (k + 1)) + 1 := by omega
    have hr : List.range' k ((faces.length - (k + 1)) + 1) =
        k :: List.range' (k + 1) (faces.length - (k + 1)) := rfl
    rw [streamGo, hcnt, hr, List.filter_cons]
    rw [ih (k + 1) htl (by omega)]
    by_cases hmem : k ∈ deg
    · rw [if_pos hmem, decide_eq_true hmem]
      simp
    · rw [if_neg hmem, decide_eq_false hmem]
      simp only [Bool.not_false, if_true, List.map_cons, List.flatten_cons]
      rw [hf, ← hgd]

theorem streamGo_closed (g : ℕ → ℚ × ℚ) (deg : List ℕ) (faces : List PskFace) :
    streamGo g deg faces 0 =
      ((nonDegIndices faces deg).map
        (fun i => (revWedgeIndices (faces.getD i dummyFace)).map g)).flatten := by
  have hrun := streamGo_drop g deg faces faces 0 (List.drop_zero faces).symm (by omega)
  rw [hrun]
  unfold nonDegIndices
  rw [Nat.sub_zero, ← List.range_eq_range']

/-- C5 counterexample: two identical valid triangles.  The second face has
three distinct vertices, yet it is recorded as degenerate (because
`bm.faces.new` raises `ValueError` for an already existing face), so the
degenerate count (1) differs from the number of faces with fewer than three
distinct vertices (0). -/
theorem c5_counterexample :
    distinct3 (facePts3 c5Wedges (c5Faces.getD 1 dummyFace)) = true ∧
    1 ∈ (assembleFaces c5Wedges c5Faces).deg ∧
    (assembleFaces c5Wedges c5Faces).deg.length ≠
      ((List.range c5Faces.length).filter
        (fun i => !distinct3 (facePts3 c5Wedges (c5Faces.getD i dummyFace)))).length := by
  decide

/-- C5 amended: a face is recorded as degenerate iff its three wedge indices
resolve to fewer than three distinct vertices OR its vertex set equals that
of an earlier successfully created face; the degenerate count equals the
number of such faces; the output topology consists exactly of the
non-degenerate faces, in order, with reversed wedge order; and the primary
UV stream is the concatenation, over faces not recorded as degenerate, of
the per-wedge UVs in the same reversed order. -/
theorem c5_degenerate_face_handling (wedges : List PskWedge) (faces : List PskFace) :
    (∀ i, i ∈ (assembleFaces wedges faces).deg ↔
      i < faces.length ∧ degSpec wedges faces i = true) ∧
    (assembleFaces wedges faces).deg.length =
      ((List.range faces.length).filter (fun j => degSpec wedges faces j)).length ∧
    (assembleFaces wedges faces).fcs =
      ((List.range faces.length).filter (fun j => !degSpec wedges faces j)).map
        (fun j => (facePts3 wedges (faces.getD j dummyFace),
          (faces.getD j dummyFace).material_index)) ∧
    uvStream wedges faces (assembleFaces wedges faces).deg =
      ((nonDegIndices faces (assembleFaces wedges faces).deg).map
        (fun i => (revWedgeIndices (faces.getD i dummyFace)).map (wedgeUV wedges))).flatten := by
  refine ⟨?_, ?_, ?_, ?_⟩
  · intro i
    rw [assembleFaces_eq]
    simp [asmPrefix, List.mem_filter, List.mem_range]
  · rw [assembleFaces_eq]
    rfl
  · rw [assembleFaces_eq]
    rfl
  · exact streamGo_closed _ _ _

/-- C5 witness: the degeneracy characterization applied to the concrete
duplicate-face mesh at face index 1. -/
theorem c5_witness :
    1 ∈ (assembleFaces c5Wedges c5Faces).deg ↔
      1 < c5Faces.length ∧ degSpec c5Wedges c5Faces 1 = true :=
  (c5_degenerate_face_handling c5Wedges c5Faces).1 1

theorem extraChannelsGo_length (extraUVs : List (ℚ × ℚ)) (wedgeCount : ℕ)
    (faces : List PskFace) (deg : List ℕ) :
    ∀ (c off : ℕ), (extraChannelsGo extraUVs wedgeCount faces deg c off).length = c := by
  intro c
  induction c with
  | zero => intro off; rfl
  | succ m ih =>
    intro off
    rw [extraChannelsGo]
    simp [ih]

theorem extraChannelsGo_getD (extraUVs : List (ℚ × ℚ)) (wedgeCount : ℕ)
    (faces : List PskFace) (deg : List ℕ) :
    ∀ (c off k : ℕ), k < c →
      (extraChannelsGo extraUVs wedgeCount faces deg c off).getD k [] =
        streamGo (fun wi => extraUVLookup extraUVs (off + k * wedgeCount + wi))
          deg faces 0 := by
  intro c
  induction c with
  | zero =>
    intro off k hk
    omega
  | succ m ih =>
    intro off k hk
    cases k with
    | zero =>
      rw [extraChannelsGo]
      show streamGo (fun wi => extraUVLookup extraUVs (off + wi)) deg faces 0 = _
      congr 1
      funext wi
      congr 1
      omega
    | succ j =>
      rw [extraChannelsGo]
      show (extraChannelsGo extraUVs wedgeCount faces deg m (off + wedgeCount)).getD j [] = _
      rw [ih (off + wedgeCount) j (by omega)]
      congr 1
      funext wi
      congr 1
      ring

/-- C9: the number of extra UV channels is
`int(len(extra_uvs) / wedge_count)` (floor division), and channel `k` is
built by reading entries at offset `k * wedge_count` plus the wedge index,
attached per non-degenerate face in the same reversed wedge order as the
primary UV pass. -/
theorem c9_extra_uv_blocks (extraUVs : List (ℚ × ℚ)) (wedges : List PskWedge)
    (faces : List PskFace) (deg : List ℕ) (hw : 0 < wedges.length) :
    (extraChannels extraUVs wedges faces deg).length =
      extraUVs.length / wedges.length ∧
    ∀ k, k < extraUVs.length / wedges.length →
      (extraChannels extraUVs wedges faces deg).getD k [] =
        ((nonDegIndices faces deg).map (fun i =>
          (revWedgeIndices (faces.getD i dummyFace)).map
            (fun wi => extraUVLookup extraUVs (k * wedges.length + wi)))).flatten := by
  constructor
  · exact extraChannelsGo_length extraUVs wedges.length faces deg _ 0
  · intro k hk
    unfold extraChannels
    rw [extraChannelsGo_getD extraUVs wedges.length faces deg _ 0 k hk]
    have hg : (fun wi => extraUVLookup extraUVs (0 + k * wedges.length + wi)) =
        (fun wi => extraUVLookup extraUVs (k * wedges.length + wi)) := by
      funext wi
      congr 1
      omega
    rw [hg]
    exact streamGo_closed _ _ _

/-- C9 witness: 6 extra UV entries over 3 wedges yield 2 channels. -/
theorem c9_witness :
    (extraChannels c9Extra c5Wedges c5Faces
      (assembleFaces c5Wedges c5Faces).deg).length =
      c9Extra.length / c5Wedges.length :=
  (c9_extra_uv_blocks c9Extra c5Wedges c5Faces
    (assembleFaces c5Wedges c5Faces).deg (by decide)).1

theorem armParentClosed_spec (arm : List ArmBone) (h : armParentClosed arm = true)
    (a : ArmBone) (ha : a ∈ arm) (pn : String) (hpn : a.parentName = some pn) :
    pn ∈ armNames arm := by
  unfold armParentClosed at h
  rw [List.all_eq_true] at h
  have hx := h a ha
  rw [hpn] at hx
  exact of_decide_eq_true hx

theorem mkImportBone_unmapped (arm : List ArmBone) (psaNames : List String)
    (nm : String) (he : nm ∉ armNames arm) :
    mkImportBone arm psaNames nm = none := by
  unfold mkImportBone
  have hfind : arm.find? (fun a => a.name == nm) = none := by
    rw [List.find?_eq_none]
    intro a ha hbeq
    rw [beq_iff_eq] at hbeq
    exact he (hbeq ▸ List.mem_map.mpr ⟨a, ha, rfl⟩)
  rw [hfind]

theorem mkImportBone_names_irrel (arm : List ArmBone) (ns ns' : List String)
    (hns : ∀ a ∈ arm, ∀ pn, a.parentName = some pn → (pn ∈ ns ↔ pn ∈ ns'))
    (nm : String) :
    mkImportBone arm ns nm = mkImportBone arm ns' nm := by
  unfold mkImportBone
  cases hfind : arm.find? (fun a => a.name == nm) with
  | none => rfl
  | some ab =>
    have hab : ab ∈ arm := List.mem_of_find?_eq_some hfind
    cases hpn : ab.parentName with
    | none => simp only [hpn]
    | some pn =>
      simp only [hpn]
      have hiff := hns ab hab pn hpn
      rw [decide_eq_decide.mpr hiff]

theorem mkImportBone_mapped_name (arm : List ArmBone) (psaNames : List String)
    (nm : String) (ib : ImpBone) (h : mkImportBone arm psaNames nm = some ib) :
    ib.name = nm ∧ nm ∈ armNames arm := by
  unfold mkImportBone at h
  cases hfind : arm.find? (fun a => a.name == nm) with
  | none =>
    rw [hfind] at h
    exact absurd h (by simp)
  | some ab =>
    rw [hfind] at h
    have hab : ab ∈ arm := List.mem_of_find?_eq_some hfind
    have hbeq := List.find?_some hfind
    simp only [beq_iff_eq] at hbeq
    constructor
    · injection h with h2
      rw [← h2]
    · exact hbeq ▸ List.mem_map.mpr ⟨ab, hab, rfl⟩

theorem dropCols_dropCol (m : ℕ → ℕ → KeyData) (k : ℕ) :
    dropCols (dropCol m) k = dropCols m (k + 1) := by
  funext f b
  show m f (b + k + 1) = m f (b + (k + 1))
  rfl

theorem pipelineOut_append (clean : Bool) :
    ∀ (A B : List (Option ImpBone)) (m : ℕ → ℕ → KeyData),
      pipelineOut clean (A ++ B) m =
        pipelineOut clean A m ++ pipelineOut clean B (dropCols m A.length) := by
  intro A
  induction A with
  | nil =>
    intro B m
    rfl
  | cons ob A2 ih =>
    intro B m
    cases ob with
    | none =>
      have hL : pipelineOut clean ((none :: A2) ++ B) m =
          pipelineOut clean (A2 ++ B) (dropCol m) := rfl
      have hR : pipelineOut clean (none :: A2) m =
          pipelineOut clean A2 (dropCol m) := rfl
      rw [hL, hR, ih B (dropCol m), dropCols_dropCol]
      rfl
    | some ib =>
      have hL : pipelineOut clean ((some ib :: A2) ++ B) m =
          (ib.name, writesOf clean (convertColM (some ib.params) (colZero m)).1) ::
            pipelineOut clean (A2 ++ B) (dropCol m) := rfl
      have hR : pipelineOut clean (some ib :: A2) m =
          (ib.name, writesOf clean (convertColM (some ib.params) (colZero m)).1) ::
            pipelineOut clean A2 (dropCol m) := rfl
      rw [hL, hR, ih B (dropCol m), dropCols_dropCol]
      rfl

theorem pipelineOut_congr (clean : Bool) :
    ∀ (A : List (Option ImpBone)) (m1 m2 : ℕ → ℕ → KeyData),
      (∀ f b, b < A.length → m1 f b = m2 f b) →
      pipelineOut clean A m1 = pipelineOut clean A m2 := by
  intro A
  induction A with
  | nil =>
    intro m1 m2 _
    rfl
  | cons ob A2 ih =>
    intro m1 m2 hm
    have hcol : colZero m1 = colZero m2 := by
      funext f
      exact hm f 0 (by simp)
    have htail : ∀ f b, b < A2.length → dropCol m1 f b = dropCol m2 f b := by
      intro f b hb
      show m1 f (b + 1) = m2 f (b + 1)
      exact hm f (b + 1) (by simp [List.length_cons]; omega)
    cases ob with
    | none =>
      show pipelineOut clean A2 (dropCol m1) = pipelineOut clean A2 (dropCol m2)
      exact ih _ _ htail
    | some ib =>
      show (ib.name, writesOf clean (convertColM (some ib.params) (colZero m1)).1) :: _ =
        (ib.name, writesOf clean (convertColM (some ib.params) (colZero m2)).1) :: _
      rw [hcol]
      exact congrArg _ (ih _ _ htail)

theorem pipelineOut_names (clean : Bool) :
    ∀ (A : List (Option ImpBone)) (m : ℕ → ℕ → KeyData)
      (entry : String × (ℕ → Fin 7 → Option ℚ)),
      entry ∈ pipelineOut clean A m → ∃ ib, some ib ∈ A ∧ entry.1 = ib.name := by
  intro A
  induction A with
  | nil =>
    intro m entry h
    exact absurd h (by simp [pipelineOut])
  | cons ob A2 ih =>
    intro m entry h
    cases ob with
    | none =>
      have h2 : entry ∈ pipelineOut clean A2 (dropCol m) := h
      obtain ⟨ib, hmem, hname⟩ := ih _ entry h2
      exact ⟨ib, List.mem_cons_of_mem _ hmem, hname⟩
    | some ib0 =>
      have h2 : entry ∈
          (ib0.name, writesOf clean (convertColM (some ib0.params) (colZero m)).1) ::
            pipelineOut clean A2 (dropCol m) := h
      rcases List.mem_cons.mp h2 with heq | hmem
      · exact ⟨ib0, List.mem_cons_self _ _, by rw [heq]⟩
      · obtain ⟨ib, hmem2, hname⟩ := ih _ entry hmem
        exact ⟨ib, List.mem_cons_of_mem _ hmem2, hname⟩

/-- C6: a source (PSA) bone whose name is absent from the armature is
reported among the missing bone names, contributes no written keyframes to
any action, and removing it (with its matrix column) leaves the output of
every other bone unchanged. -/
theorem c6_unmapped_source_bones (clean : Bool) (arm : List ArmBone)
    (pre post : List String) (e : String) (m : ℕ → ℕ → KeyData)
    (he : e ∉ armNames arm) (hpar : armParentClosed arm = true) :
    e ∈ missingBoneNames arm (pre ++ e :: post) ∧
    (∀ entry ∈ psaImport clean arm (pre ++ e :: post) m, entry.1 ≠ e) ∧
    psaImport clean arm (pre ++ e :: post) m =
      psaImport clean arm (pre ++ post) (delCol m pre.length) := by
  have hirrel : ∀ nm, mkImportBone arm (pre ++ e :: post) nm =
      mkImportBone arm (pre ++ post) nm := by
    intro nm
    apply mkImportBone_names_irrel
    intro a ha pn hpn
    have hmem : pn ∈ armNames arm := armParentClosed_spec arm hpar a ha pn hpn
    have hne : pn ≠ e := fun hq => he (hq ▸ hmem)
    constructor
    · intro hin
      rcases List.mem_append.mp hin with h1 | h2
      · exact List.mem_append.mpr (Or.inl h1)
      · rcases List.mem_cons.mp h2 with h3 | h4
        · exact absurd h3 hne
        · exact List.mem_append.mpr (Or.inr h4)
    · intro hin
      rcases List.mem_append.mp hin with h1 | h2
      · exact List.mem_append.mpr (Or.inl h1)
      · exact List.mem_append.mpr (Or.inr (List.mem_cons_of_mem _ h2))
  refine ⟨?_, ?_, ?_⟩
  · unfold missingBoneNames
    rw [List.mem_filter]
    exact ⟨List.mem_append.mpr (Or.inr (List.mem_cons_self _ _)), by simp [he]⟩
  · intro entry hentry
    obtain ⟨ib, hib, hname⟩ := pipelineOut_names clean _ m entry hentry
    unfold mkImportBones at hib
    obtain ⟨nm, _, heq⟩ := List.mem_map.mp hib
    obtain ⟨hn1, hn2⟩ := mkImportBone_mapped_name arm _ nm ib heq
    rw [hname, hn1]
    intro hq
    exact he (hq ▸ hn2)
  · unfold psaImport mkImportBones
    rw [List.map_append, List.map_cons]
    rw [show mkImportBone arm (pre ++ e :: post) e = none from
      mkImportBone_unmapped arm _ e he]
    rw [List.map_congr_left (fun nm _ => hirrel nm),
      List.map_congr_left (fun (nm : String) (_ : nm ∈ post) => hirrel nm)]
    rw [List.map_append]
    rw [pipelineOut_append, pipelineOut_append]
    congr 1
    · apply pipelineOut_congr
      intro f b hb
      rw [List.length_map] at hb
      show m f b = delCol m pre.length f b
      unfold delCol
      rw [if_pos hb]
    · have hstep : pipelineOut clean
          (none :: post.map (mkImportBone arm (pre ++ post)))
          (dropCols m (pre.map (mkImportBone arm (pre ++ post))).length) =
        pipelineOut clean (post.map (mkImportBone arm (pre ++ post)))
          (dropCol (dropCols m (pre.map (mkImportBone arm (pre ++ post))).length)) := rfl
      rw [hstep]
      have hmx : dropCol (dropCols m (pre.map (mkImportBone arm (pre ++ post))).length) =
          dropCols (delCol m pre.length)
            (pre.map (mkImportBone arm (pre ++ post))).length := by
        funext f b
        simp only [dropCol, dropCols, delCol, List.length_map]
        rw [if_neg (by omega)]
        congr 1
        omega
      rw [hmx]

/-- C6 witness: with a one-bone armature and the PSA bones Root, Spine, the
unmapped bone Spine is reported missing, contributes nothing, and deleting
it leaves the Root output unchanged. -/
theorem c6_witness :
    ("Spine" ∈ missingBoneNames c6Arm (["Root"] ++ "Spine" :: [])) ∧
    psaImport true c6Arm (["Root"] ++ "Spine" :: []) c6m =
      psaImport true c6Arm (["Root"] ++ []) (delCol c6m 1) :=
  ⟨(c6_unmapped_source_bones true c6Arm ["Root"] [] "Spine" c6m (by decide)
      (by decide)).1,
   (c6_unmapped_source_bones true c6Arm ["Root"] [] "Spine" c6m (by decide)
      (by decide)).2.2⟩

/-- C7 counterexample: a sequence over one PSA bone that is absent from the
armature.  The conversion loop marks nothing as converted and leaves the
whole sample matrix bitwise equal to the raw world-space input, so the
matrix is not fully converted to local space. -/
theorem c7_counterexample :
    mkImportBones ([] : List ArmBone) ["Bone"] = [none] ∧
    convertMark (mkImportBones ([] : List ArmBone) ["Bone"]) c7m 0 = false ∧
    convertMatrix (mkImportBones ([] : List ArmBone) ["Bone"]) c7m = c7m := by
  refine ⟨rfl, rfl, ?_⟩
  funext f b
  cases b with
  | zero => rfl
  | succ k => rfl

/-- C7 amended: the conversion pass converts exactly the mapped bones'
columns: a mapped bone's samples are all rewritten to local space (every
frame, atomically within the pass), while an unmapped bone's column is left
as raw world-space data (it is never written to any f-curve). -/
theorem c7_conversion_extent (ibs : List (Option ImpBone)) (m : ℕ → ℕ → KeyData)
    (b : ℕ) :
    (convertMark ibs m b = true ↔ (ibs.getD b none).isSome = true) ∧
    (∀ ib, ibs.getD b none = some ib →
      ∀ f, convertMatrix ibs m f b = calculate_fcurve_data ib.params (m f b)) ∧
    (ibs.getD b none = none → ∀ f, convertMatrix ibs m f b = m f b) := by
  refine ⟨?_, ?_, ?_⟩
  · unfold convertMark
    cases h : ibs.getD b none with
    | none => simp [convertColM]
    | some ib0 => simp [convertColM]
  · intro ib hib f
    show (convertColM ((ibs.getD b none).map (fun x => x.params)) (fun i => m i b)).1 f =
      calculate_fcurve_data ib.params (m f b)
    rw [hib]
    rfl
  · intro hq f
    show (convertColM ((ibs.getD b none).map (fun x => x.params)) (fun i => m i b)).1 f =
      m f b
    rw [hq]
    rfl

/-- C7 witness: the unmapped column really holds the raw sample after the
pass. -/
theorem c7_witness :
    convertMatrix (mkImportBones ([] : List ArmBone) ["Bone"]) c7m 3 0 = c7m 3 0 :=
  (c7_conversion_extent (mkImportBones ([] : List ArmBone) ["Bone"]) c7m 0).2.2 rfl 3

theorem resolveGo_cons (q : ℕ) (c : WedgeColor) (rest : List (ℕ × WedgeColor))
    (vc : ℕ → ColorRow) (amb : List ℕ) :
    resolveGo ((q, c) :: rest) vc amb =
      if (vc q).r ≠ ⊤ ∧ vc q ≠ liftColor c then resolveGo rest vc (amb ++ [q])
      else resolveGo rest (updF vc q (liftColor c)) amb := rfl

theorem liftColor_r_ne_top (c : WedgeColor) : (liftColor c).r ≠ ⊤ :=
  WithTop.coe_ne_top

theorem liftColor_inj (c c' : WedgeColor) : liftColor c = liftColor c' ↔ c = c' := by
  constructor
  · intro h
    cases c
    cases c'
    simp only [liftColor, ColorRow.mk.injEq, WithTop.coe_eq_coe] at h
    obtain ⟨h1, h2, h3, h4⟩ := h
    simp only [WedgeColor.mk.injEq]
    exact ⟨h1, h2, h3, h4⟩
  · rintro rfl
    rfl

theorem firstWedgeColor_cons_self (q : ℕ) (c : WedgeColor)
    (rest : List (ℕ × WedgeColor)) :
    firstWedgeColor ((q, c) :: rest) q = some c := by
  unfold firstWedgeColor
  rw [List.find?_cons_of_pos _ (by simp)]
  rfl

theorem firstWedgeColor_cons_ne (q : ℕ) (c : WedgeColor)
    (rest : List (ℕ × WedgeColor)) (p : ℕ) (h : q ≠ p) :
    firstWedgeColor ((q, c) :: rest) p = firstWedgeColor rest p := by
  unfold firstWedgeColor
  rw [List.find?_cons_of_neg _ (by simp [h])]

theorem resolveGo_assigned :
    ∀ (l : List (ℕ × WedgeColor)) (vc : ℕ → ColorRow) (amb : List ℕ) (p : ℕ)
      (c0 : WedgeColor), vc p = liftColor c0 →
      (resolveGo l vc amb).1 p = liftColor c0 := by
  intro l
  induction l with
  | nil =>
    intro vc amb p c0 hp
    exact hp
  | cons e rest ih =>
    obtain ⟨q, c⟩ := e
    intro vc amb p c0 hp
    rw [resolveGo_cons]
    by_cases hcond : (vc q).r ≠ ⊤ ∧ vc q ≠ liftColor c
    · rw [if_pos hcond]
      exact ih vc _ p c0 hp
    · rw [if_neg hcond]
      by_cases hqp : q = p
      · subst hqp
        have h1 : (vc q).r ≠ ⊤ := by
          rw [hp]
          exact liftColor_r_ne_top c0
        have h2 : vc q = liftColor c := by
          by_contra hq2
          exact hcond ⟨h1, hq2⟩
        apply ih _ _ q c0
        rw [updF_apply_same, ← h2, hp]
      · apply ih _ _ p c0
        rw [updF_apply_other _ _ _ _ (fun hx => hqp hx.symm)]
        exact hp

theorem resolveGo_unassigned :
    ∀ (l : List (ℕ × WedgeColor)) (vc : ℕ → ColorRow) (amb : List ℕ) (p : ℕ),
      vc p = topRow →
      (resolveGo l vc amb).1 p =
        (match firstWedgeColor l p with
         | some c => liftColor c
         | none => topRow) := by
  intro l
  induction l with
  | nil =>
    intro vc amb p hp
    exact hp
  | cons e rest ih =>
    obtain ⟨q, c⟩ := e
    intro vc amb p hp
    rw [resolveGo_cons]
    by_cases hqp : q = p
    · subst hqp
      have hcond : ¬((vc q).r ≠ ⊤ ∧ vc q ≠ liftColor c) := by
        rw [hp]
        simp [topRow]
      rw [if_neg hcond, firstWedgeColor_cons_self]
      exact resolveGo_assigned rest _ amb q c (updF_apply_same vc q (liftColor c))
    · rw [firstWedgeColor_cons_ne q c rest p hqp]
      by_cases hcond : (vc q).r ≠ ⊤ ∧ vc q ≠ liftColor c
      · rw [if_pos hcond]
        exact ih vc _ p hp
      · rw [if_neg hcond]
        apply ih
        rw [updF_apply_other _ _ _ _ (fun hx => hqp hx.symm)]
        exact hp

theorem resolveGo_amb_assigned :
    ∀ (l : List (ℕ × WedgeColor)) (vc : ℕ → ColorRow) (amb : List ℕ) (p : ℕ)
      (c0 : WedgeColor), vc p = liftColor c0 →
      (p ∈ (resolveGo l vc amb).2 ↔
        p ∈ amb ∨ ∃ c, (p, c) ∈ l ∧ liftColor c ≠ liftColor c0) := by
  intro l
  induction l with
  | nil =>
    intro vc amb p c0 hp
    simp [resolveGo]
  | cons e rest ih =>
    obtain ⟨q, c⟩ := e
    intro vc amb p c0 hp
    rw [resolveGo_cons]
    by_cases hqp : q = p
    · subst hqp
      have h1 : (vc q).r ≠ ⊤ := by
        rw [hp]
        exact liftColor_r_ne_top c0
      by_cases hcl : liftColor c = liftColor c0
      · have hcond : ¬((vc q).r ≠ ⊤ ∧ vc q ≠ liftColor c) := by
          rw [hp, hcl]
          simp
        rw [if_neg hcond]
        have hnext : updF vc q (liftColor c) q = liftColor c0 := by
          rw [updF_apply_same, hcl]
        rw [ih _ amb q c0 hnext]
        constructor
        · rintro (ha | ⟨c2, hc2, hne⟩)
          · exact Or.inl ha
          · exact Or.inr ⟨c2, List.mem_cons_of_mem _ hc2, hne⟩
        · rintro (ha | ⟨c2, hc2, hne⟩)
          · exact Or.inl ha
          · rcases List.mem_cons.mp hc2 with heq | hmem
            · have : c2 = c := by
                have := congrArg Prod.snd heq
                exact this
              rw [this] at hne
              exact absurd hcl hne
            · exact Or.inr ⟨c2, hmem, hne⟩
      · have hcond : (vc q).r ≠ ⊤ ∧ vc q ≠ liftColor c := by
          refine ⟨h1, ?_⟩
          rw [hp]
          exact fun hx => hcl hx.symm
        rw [if_pos hcond]
        rw [ih vc _ q c0 hp]
        constructor
        · intro _
          exact Or.inr ⟨c, List.mem_cons_self _ _, fun hx => hcl hx⟩
        · intro _
          exact Or.inl (List.mem_append.mpr (Or.inr (List.mem_cons_self _ _)))
    · have hmove : ∀ vc2 : ℕ → ColorRow, vc2 p = liftColor c0 →
          ∀ amb2 : List ℕ, (p ∈ amb2 ↔ p ∈ amb) →
          (p ∈ (resolveGo rest vc2 amb2).2 ↔
            p ∈ amb ∨ ∃ c2, (p, c2) ∈ (q, c) :: rest ∧ liftColor c2 ≠ liftColor c0) := by
        intro vc2 hvc2 amb2 hamb2
        rw [ih vc2 amb2 p c0 hvc2]
        constructor
        · rintro (ha | ⟨c2, hc2, hne⟩)
          · exact Or.inl (hamb2.mp ha)
          · exact Or.inr ⟨c2, List.mem_cons_of_mem _ hc2, hne⟩
        · rintro (ha | ⟨c2, hc2, hne⟩)
          · exact Or.inl (hamb2.mpr ha)
          · rcases List.mem_cons.mp hc2 with heq | hmem
            · have : p = q := by
                have := congrArg Prod.fst heq
                exact this
              exact absurd this.symm hqp
            · exact Or.inr ⟨c2, hmem, hne⟩
      by_cases hcond : (vc q).r ≠ ⊤ ∧ vc q ≠ liftColor c
      · rw [if_pos hcond]
        apply hmove vc hp
        constructor
        · intro hx
          rcases List.mem_append.mp hx with h2 | h3
          · exact h2
          · exact absurd (List.mem_singleton.mp h3).symm hqp
        · exact fun hx => List.mem_append.mpr (Or.inl hx)
      · rw [if_neg hcond]
        apply hmove
        · rw [updF_apply_other _ _ _ _ (fun hx => hqp hx.symm)]
          exact hp
        · exact Iff.rfl

theorem resolveGo_amb_unassigned :
    ∀ (l : List (ℕ × WedgeColor)) (vc : ℕ → ColorRow) (amb : List ℕ) (p : ℕ),
      vc p = topRow →
      (p ∈ (resolveGo l vc amb).2 ↔
        p ∈ amb ∨ ∃ c0 c, firstWedgeColor l p = some c0 ∧ (p, c) ∈ l ∧
          liftColor c ≠ liftColor c0) := by
  intro l
  induction l with
  | nil =>
    intro vc amb p hp
    simp [resolveGo, firstWedgeColor]
  | cons e rest ih =>
    obtain ⟨q, c⟩ := e
    intro vc amb p hp
    rw [resolveGo_cons]
    by_cases hqp : q = p
    · subst hqp
      have hcond : ¬((vc q).r ≠ ⊤ ∧ vc q ≠ liftColor c) := by
        rw [hp]
        simp [topRow]
      rw [if_neg hcond]
      rw [resolveGo_amb_assigned rest _ amb q c (updF_apply_same vc q (liftColor c))]
      rw [firstWedgeColor_cons_self]
      constructor
      · rintro (ha | ⟨c2, hc2, hne⟩)
        · exact Or.inl ha
        · exact Or.inr ⟨c, c2, rfl, List.mem_cons_of_mem _ hc2, hne⟩
      · rintro (ha | ⟨c0, c2, hc0, hc2, hne⟩)
        · exact Or.inl ha
        · injection hc0 with hc0e
          subst hc0e
          rcases List.mem_cons.mp hc2 with heq | hmem
          · have hcc : c2 = c := by
              have := congrArg Prod.snd heq
              exact this
            rw [hcc] at hne
            exact absurd rfl hne
          · exact Or.inr ⟨c2, hmem, hne⟩
    · rw [firstWedgeColor_cons_ne q c rest p hqp]
      have hmove : ∀ vc2 : ℕ → ColorRow, vc2 p = topRow →
          ∀ amb2 : List ℕ, (p ∈ amb2 ↔ p ∈ amb) →
          (p ∈ (resolveGo rest vc2 amb2).2 ↔
            p ∈ amb ∨ ∃ c0 c2, firstWedgeColor rest p = some c0 ∧
              (p, c2) ∈ (q, c) :: rest ∧ liftColor c2 ≠ liftColor c0) := by
        intro vc2 hvc2 amb2 hamb2
        rw [ih vc2 amb2 p hvc2]
        constructor
        · rintro (ha | ⟨c0, c2, hc0, hc2, hne⟩)
          · exact Or.inl (hamb2.mp ha)
          · exact Or.inr ⟨c0, c2, hc0, List.mem_cons_of_mem _ hc2, hne⟩
        · rintro (ha | ⟨c0, c2, hc0, hc2, hne⟩)
          · exact Or.inl (hamb2.mpr ha)
          · rcases List.mem_cons.mp hc2 with heq | hmem
            · have : p = q := by
                have := congrArg Prod.fst heq
                exact this
              exact absurd this.symm hqp
            · exact Or.inr ⟨c0, c2, hc0, hmem, hne⟩
      by_cases hcond : (vc q).r ≠ ⊤ ∧ vc q ≠ liftColor c
      · rw [if_pos hcond]
        apply hmove vc hp
        constructor
        · intro hx
          rcases List.mem_append.mp hx with h2 | h3
          · exact h2
          · exact absurd (List.mem_singleton.mp h3).symm hqp
        · exact fun hx => List.mem_append.mpr (Or.inl hx)
      · rw [if_neg hcond]
        apply hmove
        · rw [updF_apply_other _ _ _ _ (fun hx => hqp hx.symm)]
          exact hp
        · exact Iff.rfl

/-- C8: a vertex is flagged ambiguous iff two of its wedges carry different
colors; the first-seen color deterministically wins (the resolved buffer
holds the first wedge's color); and the sRGB conversion, when requested, is
applied to the resolved per-vertex winner (the final color is the conversion
of the first-seen color), never to the losing per-wedge colors. -/
theorem c8_vertex_color_policy (wps : List (ℕ × WedgeColor)) (p : ℕ)
    (ap : Bool) (g : WithTop ℚ → WithTop ℚ) :
    (p ∈ (resolveColors wps).2 ↔
      ∃ c c', (p, c) ∈ wps ∧ (p, c') ∈ wps ∧ c ≠ c') ∧
    (∀ c0, firstWedgeColor wps p = some c0 →
      (resolveColors wps).1 p = liftColor c0) ∧
    (∀ c0, firstWedgeColor wps p = some c0 →
      srgbRow ap g ((resolveColors wps).1 p) = srgbRow ap g (liftColor c0)) := by
  have hbase := resolveGo_amb_unassigned wps (fun _ => topRow) [] p rfl
  have hval := resolveGo_unassigned wps (fun _ => topRow) [] p rfl
  refine ⟨?_, ?_, ?_⟩
  · unfold resolveColors
    rw [hbase]
    simp only [List.not_mem_nil, false_or]
    constructor
    · rintro ⟨c0, c, hc0, hc, hne⟩
      have hfc0 : (p, c0) ∈ wps := by
        unfold firstWedgeColor at hc0
        cases hfind : wps.find? (fun e => e.1 == p) with
        | none =>
          rw [hfind] at hc0
          exact absurd hc0 (by simp)
        | some e0 =>
          rw [hfind] at hc0
          have hmem := List.mem_of_find?_eq_some hfind
          have hpred := List.find?_some hfind
          simp only [beq_iff_eq] at hpred
          rw [show Option.map (fun (e : ℕ × WedgeColor) => e.2) (some e0) =
            some e0.2 from rfl] at hc0
          injection hc0 with hc0e
          have he0 : e0 = (p, c0) := by
            cases e0
            simp only [Prod.mk.injEq]
            exact ⟨hpred, hc0e⟩
          rw [← he0]
          exact hmem
      exact ⟨c, c0, hc, hfc0, fun hx => hne (congrArg liftColor hx)⟩
    · rintro ⟨c, c', hc, hc', hne⟩
      obtain ⟨e0, hfind⟩ : ∃ e0, wps.find? (fun e => e.1 == p) = some e0 := by
        cases hf : wps.find? (fun e => e.1 == p) with
        | some e0 => exact ⟨e0, rfl⟩
        | none =>
          rw [List.find?_eq_none] at hf
          exact absurd (by simp : ((p, c).1 == p) = true) (by simpa using hf (p, c) hc)
      have hc0 : firstWedgeColor wps p = some e0.2 := by
        unfold firstWedgeColor
        rw [hfind]
        rfl
      by_cases hcc : c = e0.2
      · refine ⟨e0.2, c', hc0, hc', fun hx => hne ?_⟩
        have h2 := (liftColor_inj c' e0.2).mp hx
        rw [hcc, ← h2]
      · exact ⟨e0.2, c, hc0, hc, fun hx => hcc ((liftColor_inj c e0.2).mp hx)⟩
  · intro c0 hc0
    unfold resolveColors
    rw [hval, hc0]
  · intro c0 hc0
    unfold resolveColors
    rw [hval, hc0]

/-- C8 witness: at the conflicting wedges `(0, red), (0, green)`, vertex 0
is flagged ambiguous and the first-seen color red wins. -/
theorem c8_witness :
    0 ∈ (resolveColors c8Wps).2 ∧
    (resolveColors c8Wps).1 0 = liftColor ⟨1, 0, 0, 1⟩ :=
  ⟨(c8_vertex_color_policy c8Wps 0 false (fun x => x)).1.mpr
     ⟨⟨1, 0, 0, 1⟩, ⟨0, 1, 0, 1⟩, List.mem_cons_self _ _,
      List.mem_cons_of_mem _ (List.mem_cons_self _ _),
      fun h => absurd (congrArg WedgeColor.r h) (by simp)⟩,
   (c8_vertex_color_policy c8Wps 0 false (fun x => x)).2.1 ⟨1, 0, 0, 1⟩ rfl⟩

/-- C10: the white fallback in the loop-color write is dead (the numpy row
lookup never yields `None`, so the written list is exactly the per-loop
lookup), and a vertex referenced by loops but by no wedge keeps the
all-infinity sentinel: it is written as that vertex's color (in sRGB mode
under the fact that the conversion fixes infinity). -/
theorem c10_color_fallback_dead (wps : List (ℕ × WedgeColor)) (loops : List ℕ)
    (p : ℕ) (hp : ∀ e ∈ wps, e.1 ≠ p) (ap : Bool) (g : WithTop ℚ → WithTop ℚ)
    (hg : ap = true → g ⊤ = ⊤) :
    loopColorsOut (fun q => srgbRow ap g ((resolveColors wps).1 q)) loops =
      loops.map (fun q => srgbRow ap g ((resolveColors wps).1 q)) ∧
    (resolveColors wps).1 p = topRow ∧
    srgbRow ap g ((resolveColors wps).1 p) = topRow := by
  have hfirst : firstWedgeColor wps p = none := by
    unfold firstWedgeColor
    have hnone : wps.find? (fun e => e.1 == p) = none := by
      rw [List.find?_eq_none]
      intro e he
      simp [hp e he]
    rw [hnone]
    rfl
  have hres : (resolveColors wps).1 p = topRow := by
    unfold resolveColors
    rw [resolveGo_unassigned wps (fun _ => topRow) [] p rfl, hfirst]
  refine ⟨rfl, hres, ?_⟩
  rw [hres]
  cases ap with
  | false => rfl
  | true =>
    show (⟨g topRow.r, g topRow.g, g topRow.b, topRow.a⟩ : ColorRow) = topRow
    rw [show topRow.r = (⊤ : WithTop ℚ) from rfl, show topRow.g = (⊤ : WithTop ℚ) from rfl,
      show topRow.b = (⊤ : WithTop ℚ) from rfl, hg rfl]
    rfl

/-- C10 witness: with wedges only at vertex 0, vertex 1 keeps the sentinel,
also through the sRGB step. -/
theorem c10_witness :
    (resolveColors c8Wps).1 1 = topRow ∧
    srgbRow true (fun x => x) ((resolveColors c8Wps).1 1) = topRow :=
  ⟨(c10_color_fallback_dead c8Wps [0, 1] 1 (by decide) true (fun x => x)
      (fun _ => rfl)).2.1,
   (c10_color_fallback_dead c8Wps [0, 1] 1 (by decide) true (fun x => x)
      (fun _ => rfl)).2.2⟩
